import Mathlib

/-!
# Verification of the `scpi_virtual` SCPI protocol engine

A shallow embedding of the protocol engine of the `scpi_virtual`
repository (files `instrument.py`, `scpi.py`, `AMI420.py`) together with
proofs about it.

Modelling conventions:
* Python strings are modelled as `List Char` (`Str` below); `str.upper`
  is `List.map Char.toUpper` (inputs are Latin-1 lines, the commands that
  matter are ASCII, and Lean's `Char.toUpper` is the ASCII case map).
* Python numbers occurring in parsed program data are modelled as `ℚ`
  (the parser only ever produces finite decimal values).
* Python dictionaries are association lists; the *object identity* of the
  nested command dictionaries (which `add_command` aliases between a long
  mnemonic and its derived short form) is modelled with an explicit store:
  a `Tree` is a list of `Node`s and dictionary values are node indices,
  so aliased keys share an index exactly as two Python keys share one
  `dict` object.
* Exceptions are modelled with `Except PyErr`; `PyErr.isProtocolError`
  distinguishes the `ProtocolError` family (which `process_messages`
  catches) from other exceptions (`KeyError`, `TypeError`,
  `pyparsing.ParseException`, ...) which propagate.
-/

deriving instance DecidableEq for Except

namespace SCPIVirt

/-- Python strings, modelled as lists of characters. -/
abbrev Str := List Char

/-- `str.upper` (ASCII fragment, which covers every command the engine sees). -/
def strUpper (s : Str) : Str := s.map Char.toUpper

/-- Python `str.split(sep)` for a one-character separator: `''.split(':') = ['']`,
`'a::b'.split(':') = ['a', '', 'b']`. Never returns `[]`. -/
def splitOnChar (sep : Char) : Str → List Str
  | [] => [[]]
  | c :: cs =>
    match splitOnChar sep cs with
    | [] => [[]]
    | t :: ts => if c = sep then [] :: t :: ts else (c :: t) :: ts

/-- Exceptions of the Python code.  `protocol`, `outOfRange` and
`invalidArgument` together model the `ProtocolError` class hierarchy of
`instrument.py` (`OutOfRangeError` and `InvalidArgumentError` are
subclasses); `nonProtocol` models every other exception kind, which
`SCPI_receiver.process_messages` does *not* catch. -/
inductive PyErr where
  | protocol (msg : Str)
  | outOfRange
  | invalidArgument
  | nonProtocol (kind : Str)
deriving DecidableEq, Repr

/-- Membership in the `ProtocolError` class hierarchy: exactly the
exceptions caught by `except ProtocolError` in `process_messages`. -/
def PyErr.isProtocolError : PyErr → Bool
  | .protocol _ => true
  | .outOfRange => true
  | .invalidArgument => true
  | .nonProtocol _ => false

/-- `str(e)` of the exception, as interpolated into the error log entry. -/
def PyErr.msgStr : PyErr → Str
  | .protocol m => m
  | .outOfRange => []
  | .invalidArgument => []
  | .nonProtocol k => k

/-! ## The command tree of `SCPI_receiver` (`instrument.py`)

A Python command dictionary maps mnemonic strings to nested dictionaries
and possibly the key `None` to a handler.  Handlers are modelled by
natural-number identifiers (standing for Python function identity).  A
`Node` is one dictionary: its string keys (`children`, an association
list of node indices into the store) and its `None` entry (`endpoint`). -/

structure Node where
  children : List (Str × Nat)
  endpoint : Option Nat
deriving DecidableEq, Repr

/-- The store of all dictionaries reachable from `self.commands`;
index `0` is `self.commands` itself. -/
structure Tree where
  nodes : List Node
deriving DecidableEq, Repr

/-- `SCPI_receiver.__init__`: `self.commands = {}`. -/
def emptyTree : Tree := ⟨[⟨[], none⟩]⟩

/-- Dictionary read (`k in dct` / `dct[k]`). -/
def lookupA (k : Str) : List (Str × Nat) → Option Nat
  | [] => none
  | (k', v) :: rest => if k' = k then some v else lookupA k rest

/-- Dictionary write `dct[k] = v` (replace the binding if present, else append). -/
def insertA (k : Str) (v : Nat) : List (Str × Nat) → List (Str × Nat)
  | [] => [(k, v)]
  | (k', v') :: rest => if k' = k then (k, v) :: rest else (k', v') :: insertA k v rest

/-- Read a node of the store (indices produced by the code are always in
range; the default is never reached from reachable states). -/
def getNode (t : Tree) (i : Nat) : Node := t.nodes.getD i ⟨[], none⟩

/-- Write one node of the store. -/
def setNode (t : Tree) (i : Nat) (n : Node) : Tree := ⟨t.nodes.set i n⟩

/-- Allocate a fresh empty dictionary (`{}`), returning its index. -/
def allocNode (t : Tree) : Tree × Nat := (⟨t.nodes ++ [⟨[], none⟩]⟩, t.nodes.length)

/-- The vowels used by `add_command`'s short-form rule (`tkn[3] in 'AEIOUY'`). -/
def vowelsAEIOUY : Str := ("AEIOUY").data

/-- The short mnemonic derived by `add_command` for a (bracket-stripped)
token `tkn`.  With `ignore_case`: first 3 letters of the upper-cased token
if the token is longer than 3 characters and its 4th character *as
written* is an upper-case vowel, else its first 4 letters if longer
than 4, else no short form.  Without `ignore_case`: the leading
`[A-Z_0-9]+` run of a mixed-case token (error if that run is empty). -/
def shortOf (ignore_case : Bool) (tkn : Str) : Except PyErr (Option Str) :=
  let long := strUpper tkn
  if ignore_case then
    .ok (if 3 < tkn.length ∧ tkn.getD 3 ' ' ∈ vowelsAEIOUY then some (long.take 3)
         else if 4 < tkn.length then some (long.take 4)
         else none)
  else if long ≠ tkn then
    let m := tkn.takeWhile (fun c => c.isUpper || c = '_' || c.isDigit)
    if m = [] then .error (.protocol (("Cannot use case in ").data ++ tkn))
    else .ok (some m)
  else .ok none

/-- One token of `add_command`'s main loop, before the dictionary pass:
length check, `[`-bracket detection and stripping (`tkn[:len(tkn)-skip]`),
second length check.  Returns the `next_optional` flag and the stripped
token. -/
def stripTok (optional : Bool) (tkn : Str) : Except PyErr (Bool × Str) :=
  if tkn = [] then .error (.protocol (("Zero-length command").data))
  else
    let nextOpt := tkn.getLast? = some '['
    let skip := (if optional then 1 else 0) + (if nextOpt then 1 else 0)
    let tkn1 := tkn.take (tkn.length - skip)
    if tkn1 = [] then .error (.protocol (("Empty subcommand").data))
    else .ok (nextOpt, tkn1)

/-- The body of `for dct in locations:` for a single dictionary `dct`:
if the long form is absent, allocate a fresh child, bind the long form to
it and alias the short form to the *same* child (raising on a short-form
collision); return the child index `dct[long_tkn]`. -/
def addTokenAt (t : Tree) (dct : Nat) (long : Str) (short : Option Str) :
    Except PyErr (Tree × Nat) :=
  let node := getNode t dct
  match lookupA long node.children with
  | some cid => .ok (t, cid)
  | none =>
    let (t1, newId) := allocNode t
    let node1 : Node := { node with children := insertA long newId node.children }
    match short with
    | none => .ok (setNode t1 dct node1, newId)
    | some s =>
      match lookupA s node1.children with
      | some _ => .error (.protocol (("Duplicate short mnemonic ").data ++ s))
      | none => .ok (setNode t1 dct { node1 with children := insertA s newId node1.children }, newId)

/-- `for dct in locations:` — thread the store through all current
locations, collecting `next_locations` (the child of each, plus the
dictionary itself when the previous segment was optional). -/
def addTokenLocs (long : Str) (short : Option Str) (optional : Bool) :
    List Nat → Tree → Except PyErr (Tree × List Nat)
  | [], t => .ok (t, [])
  | dct :: rest, t => do
    let (t1, cid) ← addTokenAt t dct long short
    let (t2, next) ← addTokenLocs long short optional rest t1
    .ok (t2, (cid :: (if optional then [dct] else [])) ++ next)

/-- The main token loop of `add_command` over `subcmds[1:]`. -/
def addTokens (ignore_case : Bool) : List Str → Bool → List Nat → Tree →
    Except PyErr (Tree × List Nat)
  | [], _, locs, t => .ok (t, locs)
  | tkn :: rest, optional, locs, t => do
    let (nextOpt, tkn1) ← stripTok optional tkn
    let short ← shortOf ignore_case tkn1
    let long := strUpper tkn1
    let (t1, locs1) ← addTokenLocs long short optional locs t
    addTokens ignore_case rest nextOpt locs1 t1

/-- `# All leafs found, filling in endpoints`: store the handler under the
`None` key of every final location, raising if one is already filled. -/
def fillEndpoints (handler : Nat) : List Nat → Tree → Except PyErr Tree
  | [], t => .ok t
  | dct :: rest, t =>
    let node := getNode t dct
    match node.endpoint with
    | some _ => .error (.protocol (("Command already registered").data))
    | none => fillEndpoints handler rest (setNode t dct { node with endpoint := some handler })

/-- `SCPI_receiver.add_command(cmd, handler, ignore_case)`. -/
def addCommand (t : Tree) (cmd : Str) (handler : Nat) (ignore_case : Bool) :
    Except PyErr Tree :=
  match splitOnChar ':' cmd with
  | [] => .error (.nonProtocol (("unreachable: str.split is never empty").data))
  | first :: rest =>
    if first.head? = some '*' then
      if rest ≠ [] then
        .error (.protocol (("Standard IEEE commands cannot contain colons").data))
      else
        -- `self.commands[subcmds[0]] = {None: handler}`
        let (t1, newId) := allocNode t
        let t2 := setNode t1 0 { getNode t1 0 with
                                  children := insertA first newId (getNode t1 0).children }
        .ok (setNode t2 newId ⟨[], some handler⟩)
    else if first = ("[").data ∨ first = [] then do
      let (t1, locs) ← addTokens ignore_case rest (first = ("[").data) [0] t
      fillEndpoints handler locs t1
    else
      .error (.protocol (("Commands should be specified in full form from root").data))

/-- The inner `resolve(tokens)` of `SCPI_receiver.find`, generalized to an
arbitrary starting dictionary `dct` (the source always starts at
`self.commands`, node `0`). -/
def resolveFrom (t : Tree) : Nat → List Str → Option Nat
  | dct, [] => (getNode t dct).endpoint
  | dct, tok :: rest =>
    match lookupA tok (getNode t dct).children with
    | none => none
    | some cid => resolveFrom t cid rest

/-- `resolve(tokens)` from the root dictionary. -/
def resolveTokens (t : Tree) (tokens : List Str) : Option Nat :=
  resolveFrom t 0 tokens

/-- `SCPI_receiver.find(header, parent)`: returns the handler and the new
parent token list for subsequent shorthand headers. -/
def find (t : Tree) (header : Str) (parent : List Str) :
    Except PyErr (Nat × List Str) :=
  match splitOnChar ':' header with
  | [] => .error (.nonProtocol (("unreachable: str.split is never empty").data))
  | first :: rest =>
    if first = [] then
      -- Global command, resolved from the root.
      match resolveTokens t rest with
      | none => .error (.protocol (("Unknown command `").data ++ header ++ ("`").data))
      | some h => .ok (h, rest.dropLast)
    else if first.head? = some '*' then
      -- Common commands (IEEE 488.2 A.1.1 (6)): parent is unchanged.
      if rest ≠ [] then .error (.protocol (("Invalid common command ").data ++ header))
      else
        match lookupA first (getNode t 0).children with
        | some cid =>
          match (getNode t cid).endpoint with
          | some h => .ok (h, parent)
          | none => .error (.nonProtocol (("KeyError").data))
        | none => .error (.protocol (("Unknown command command ").data ++ header))
    else
      -- Shorthand form: resolve `parent + subcmds` from the root.
      match resolveTokens t (parent ++ first :: rest) with
      | none => .error (.protocol (("Unknown command ").data ++ header))
      | some h => .ok (h, parent ++ (first :: rest).dropLast)

/-! ## The float value resolver `get_float_value` (`instrument.py`) -/

/-- One parsed argument (`program_data` of `scpi.py`): the tagged variant
obtained through `parse_value.getName()`.  `number` carries the computed
decimal value and the raw suffix text; `ndnumber` is non-decimal numeric
program data (`#H…`, `#Q…`, `#B…`), which is also named `"number"` in the
grammar but has no `.value`/`.suffix` structure. -/
inductive Arg where
  | symbol (s : Str)
  | number (value : ℚ) (suffix : Str)
  | ndnumber (n : Nat)
  | qstring (s : Str)
  | block (b : Str)
deriving DecidableEq, Repr

/-- The `SI_prefixes` table of `instrument.py`. -/
def SI_prefixes : List (Str × ℚ) :=
  [(("EX").data, (10:ℚ)^(18:Nat)), (("PE").data, (10:ℚ)^(15:Nat)),
   (("T").data, (10:ℚ)^(12:Nat)), (("G").data, (10:ℚ)^(9:Nat)),
   (("MA").data, (10:ℚ)^(6:Nat)), (("K").data, (10:ℚ)^(3:Nat)),
   (("M").data, 1/(10:ℚ)^(3:Nat)), (("U").data, 1/(10:ℚ)^(6:Nat)),
   (("N").data, 1/(10:ℚ)^(9:Nat)), (("P").data, 1/(10:ℚ)^(12:Nat)),
   (("F").data, 1/(10:ℚ)^(15:Nat)), (("A").data, 1/(10:ℚ)^(18:Nat))]

/-- Association lookup in `SI_prefixes`. -/
def lookupQ (k : Str) : List (Str × ℚ) → Option ℚ
  | [] => none
  | (k', v) :: rest => if k' = k then some v else lookupQ k rest

/-- Association lookup in a units dictionary (whose keys may be `None`). -/
def lookupU (k : Option Str) : List (Option Str × ℚ) → Option ℚ
  | [] => none
  | (k', v) :: rest => if k' = k then some v else lookupU k rest

/-- The `units` argument of `get_float_value`: Python `None`, a unit
string, a dict (possibly with a `None` key whose callable value we model
by the rational it returns), or an object with a `.unit` attribute. -/
inductive UnitsSpec where
  | unone
  | ustr (u : Str)
  | udict (entries : List (Option Str × ℚ))
  | uobj (u : Str)
deriving DecidableEq, Repr

/-- The `for unit in units: ... else: raise InvalidArgumentError()` loop of
`get_float_value`: find the first unit the (upper-cased) suffix ends with,
strip it, and convert the remaining SI prefix; a `KeyError` on an unknown
SI prefix is caught and the loop continues with the next unit. -/
def suffixFactor (suffix : Str) : List (Option Str × ℚ) → Except PyErr ℚ
  | [] => .error .invalidArgument
  | (none, _) :: rest => suffixFactor suffix rest
  | (some u, f) :: rest =>
    if List.isSuffixOf (strUpper u) suffix then
      let pfx := if u.length = 0 then ([] : Str) else suffix.take (suffix.length - u.length)
      if pfx ≠ [] then
        match lookupQ pfx SI_prefixes with
        | some sif => .ok (sif * f)
        | none => suffixFactor suffix rest
      else .ok f
    else suffixFactor suffix rest

/-- `get_float_value(parse_value, min_max, default, units)` of
`instrument.py` (lines 208–259), faithfully including the branch that
returns `vmin` for `MAX`/`MAXIMUM` and `vmax` for `MIN`/`MINIMUM`. -/
def getFloatValue (pv : Arg) (min_max : ℚ × ℚ) (default : Option ℚ := none)
    (units : UnitsSpec := .unone) : Except PyErr ℚ :=
  let vmin := min_max.1
  let vmax := min_max.2
  match pv with
  | .symbol s =>
    if s = ("MAX").data ∨ s = ("MAXIMUM").data then .ok vmin
    else if s = ("MIN").data ∨ s = ("MINIMUM").data then .ok vmax
    else if s = ("DEF").data ∨ s = ("DEFAULT").data then
      match default with
      | none => .error .invalidArgument
      | some d => .ok d
    else .error .invalidArgument
  | .number v sfx => do
    let suffix := strUpper sfx
    let factor ←
      if suffix ≠ [] then
        match units with
        | .unone => .error .invalidArgument
        | .ustr u => suffixFactor suffix [(some u, 1)]
        | .udict entries => suffixFactor suffix entries
        | .uobj u => suffixFactor suffix [(some u, 1)]
      else
        match units with
        | .udict entries =>
          match lookupU none entries with
          | some f => pure f
          | none => .error (.nonProtocol (("KeyError").data))
        | _ => pure 1
    let value := v * factor
    if value < vmin ∨ vmax < value then .error .outOfRange
    else .ok value
  | .ndnumber _ => .error (.nonProtocol (("AttributeError").data))
  | _ => .error .invalidArgument

/-! ## The grammar of `scpi.py`

The source builds the grammar with `pyparsing`.  Below is a direct
functional model of that grammar: each combinator becomes a function
`Str → Option (result × Str)` consuming input from the front.  Whitespace
is `pyparsing`'s configured set `[\x00-\x09\x0b-\x20]` (note `\n` is
excluded).  Alternatives whose first characters are disjoint model the
longest-match `^` operator by dispatch on the first character. -/

/-- The configured whitespace characters (`\n` is *not* whitespace). -/
def wsChar (c : Char) : Bool := c.toNat ≤ 32 && c.toNat ≠ 10

/-- Skip leading whitespace (the implicit `preParse` of every element). -/
def skipWS (s : Str) : Str := s.dropWhile wsChar

/-- `pp.Word(init, body)`: one character satisfying `init` followed by the
longest run satisfying `body`. -/
def parseWord (initP bodyP : Char → Bool) : Str → Option (Str × Str)
  | [] => none
  | c :: cs =>
    if initP c then some (c :: cs.takeWhile bodyP, cs.dropWhile bodyP) else none

/-- Body characters of `program_mnemonic` (`alphanums + "_"`). -/
def mnBody (c : Char) : Bool := c.isAlphanum || c = '_'

/-- `program_mnemonic = Word(alphas, alphanums + "_")`. -/
def parseMnemonic (s : Str) : Option (Str × Str) := parseWord Char.isAlpha mnBody s

/-- The `(":" mnemonic)*` tail of `compound_program_header`
(`delimitedList(program_mnemonic, delim=":", combine=True)`, adjacent). -/
def parseCompoundRest (fuel : Nat) (acc : Str) (s : Str) : Str × Str :=
  match fuel with
  | 0 => (acc, s)
  | fuel+1 =>
    match s with
    | ':' :: cs =>
      match parseMnemonic cs with
      | some (m, r) => parseCompoundRest fuel (acc ++ ':' :: m) r
      | none => (acc, s)
    | _ => (acc, s)

/-- `compound_program_header`: optional leading `:`, then a `:`-joined
mnemonic list, combined into one string. -/
def parseCompound (s : Str) : Option (Str × Str) :=
  let (pre, s1) : Str × Str := match s with
    | ':' :: cs => ([':'], cs)
    | _ => ([], s)
  match parseMnemonic s1 with
  | none => none
  | some (m, r) =>
    let (txt, r2) := parseCompoundRest r.length (pre ++ m) r
    some (txt, r2)

/-- `program_header`: common (`*` + mnemonic) or compound header, then an
optional adjacent `?` — which is *included in the header text* (the
grammar never binds a separate `query` result). -/
def parseHeaderQ (s : Str) : Option (Str × Str) :=
  let base : Option (Str × Str) :=
    match s with
    | '*' :: cs => (parseMnemonic cs).map (fun p => ('*' :: p.1, p.2))
    | _ => parseCompound s
  match base with
  | none => none
  | some (h, r) =>
    match r with
    | '?' :: r2 => some (h ++ [('?' : Char)], r2)
    | _ => some (h, r)

/-- Errors of `FiniteBlock.parseImpl`: a `pyparsing.ParseException` (which
alternation backtracks over), or an uncaught `IndexError`/`ValueError`
from `instring[loc]` / `int(...)`. -/
inductive FBErr where
  | parseExc (msg : Str)
  | indexError
  | valueError
deriving DecidableEq, Repr

/-- Numeric value of one ASCII digit. -/
def digitVal (c : Char) : Nat := c.toNat - 48

/-- Value of a digit run. -/
def natVal (s : Str) : Nat := s.foldl (fun a c => a * 10 + digitVal c) 0

/-- Python `int(s)` restricted to non-empty all-digit strings (the only
shape produced by a well-formed block; on anything else `int` raises
`ValueError`, modelled as `none`). -/
def digitsVal? (s : Str) : Option Nat :=
  if s ≠ [] ∧ s.all Char.isDigit then some (natVal s) else none

/-- `FiniteBlock.parseImpl(instring, loc)` of `scpi.py` (lines 83–103):
`#` + one digit `1..9` giving the length-of-length `ll`, then `ll` digits
giving the data length `l`, then the data.  Both length checks use `≥`:
`loc + ll >= len(instring)` and `loc + l >= len(instring)`. -/
def parseImplFB (instring : Str) (loc : Nat) : Except FBErr (Nat × Str) :=
  match instring.get? loc with
  | none => .error .indexError
  | some c0 =>
    if c0 ≠ '#' then .error (.parseExc (("Not a block").data))
    else
      match instring.get? (loc + 1) with
      | none => .error .indexError
      | some c1 =>
        if c1 ∈ ("123456789").data then
          let ll := digitVal c1
          let loc2 := loc + 2
          if loc2 + ll ≥ instring.length then
            .error (.parseExc (("Message too short for block length length").data))
          else
            match digitsVal? ((instring.drop loc2).take ll) with
            | none => .error .valueError
            | some l =>
              let loc3 := loc2 + ll
              if loc3 + l ≥ instring.length then
                .error (.parseExc (("Message too short for block length").data))
              else .ok (loc3 + l, (instring.drop loc3).take l)
        else .error (.parseExc (("Invalid block length length").data))

/-- Quoted-string scan after the opening `'`: `''` is an escaped quote,
a single `'` closes; an unterminated string fails. -/
def parseQuotedRest (fuel : Nat) (s : Str) : Option (Str × Str) :=
  match fuel, s with
  | _, [] => none
  | 0, _ => none
  | fuel+1, '\'' :: cs =>
    match cs with
    | '\'' :: cs2 => (parseQuotedRest fuel cs2).map (fun p => ('\'' :: p.1, p.2))
    | _ => some ([], cs)
  | fuel+1, c :: cs => (parseQuotedRest fuel cs).map (fun p => (c :: p.1, p.2))

/-- Digit run helper: longest prefix of digits and the rest. -/
def digitsRun (s : Str) : Str × Str := (s.takeWhile Char.isDigit, s.dropWhile Char.isDigit)

/-- The integer-first mantissa alternative
`Word(nums) + Optional("." + Optional(Word(nums), default="0"))`. -/
def parseMantissaInt (sgn : ℚ) (s : Str) : Option (ℚ × Str) :=
  let (ip, r) := digitsRun s
  if ip = [] then none
  else
    match r with
    | '.' :: cs =>
      let (fp, r2) := digitsRun cs
      let frac := if fp = [] then (("0").data) else fp
      some (sgn * ((natVal ip : ℚ) + (natVal frac : ℚ) / (10:ℚ)^frac.length), r2)
    | _ => some (sgn * (natVal ip : ℚ), r)

/-- `mantissa`: optional sign, then `("." + Word(nums)) | (Word(nums) + …)`. -/
def parseMantissa (s : Str) : Option (ℚ × Str) :=
  let (sgn, s1) : ℚ × Str := match s with
    | '+' :: cs => (1, cs)
    | '-' :: cs => (-1, cs)
    | _ => (1, s)
  match s1 with
  | '.' :: cs =>
    let (ds, r) := digitsRun cs
    if ds = [] then none
    else some (sgn * ((natVal ds : ℚ) / (10:ℚ)^ds.length), r)
  | _ => parseMantissaInt sgn s1

/-- `exponent`: optional `[eE]` and a signed digit run (whitespace is
skipped before both parts, as `pyparsing` does). -/
def parseExponent (s : Str) : Option (ℤ × Str) :=
  match skipWS s with
  | c :: cs =>
    if c = 'e' ∨ c = 'E' then
      let s2 := skipWS cs
      let (sgn, s3) : ℤ × Str := match s2 with
        | '+' :: r => (1, r)
        | '-' :: r => (-1, r)
        | _ => (1, s2)
      let (ds, r) := digitsRun s3
      if ds = [] then none else some (sgn * (natVal ds : ℤ), r)
    else none
  | [] => none

/-- One component of `suffix_program_data`:
`Word(alphas) + Optional(Optional("-") + Char(nums))`. -/
def parseSuffixUnit (s : Str) : Option (Str × Str) :=
  match parseWord Char.isAlpha Char.isAlpha s with
  | none => none
  | some (w, r) =>
    match r with
    | '-' :: d :: r2 => if d.isDigit then some (w ++ ['-', d], r2) else some (w, r)
    | d :: r2 => if d.isDigit then some (w ++ [d], r2) else some (w, r)
    | [] => some (w, r)

/-- The `(('.'|'/') component)*` tail of the suffix (adjacent, combined). -/
def parseSuffixRest (fuel : Nat) (acc : Str) (s : Str) : Str × Str :=
  match fuel with
  | 0 => (acc, s)
  | fuel+1 =>
    match s with
    | c :: cs =>
      if c = '.' ∨ c = '/' then
        match parseSuffixUnit cs with
        | some (u, r) => parseSuffixRest fuel (acc ++ c :: u) r
        | none => (acc, s)
      else (acc, s)
    | [] => (acc, s)

/-- `suffix_program_data`: optional leading `/`, then `.`/`/`-joined
components, combined into one string. -/
def parseSuffix (s : Str) : Option (Str × Str) :=
  let (pre, s1) : Str × Str := match s with
    | '/' :: cs => (['/'], cs)
    | _ => ([], s)
  match parseSuffixUnit s1 with
  | none => none
  | some (u, r) =>
    let (txt, r2) := parseSuffixRest r.length (pre ++ u) r
    some (txt, r2)

/-- `decimal_numeric_program_data + Optional(suffix_program_data)`:
the parse action computes `mantissa * (10 ** exponent if present else 1)`. -/
def parseNumber (s : Str) : Option (Arg × Str) :=
  match parseMantissa s with
  | none => none
  | some (m, r) =>
    let (v1, r1) : ℚ × Str :=
      match parseExponent r with
      | some (e, r2) => (m * (10:ℚ)^(e:ℤ), r2)
      | none => (m * 1, r)
    match parseSuffix (skipWS r1) with
    | some (sfx, r2) => some (.number v1 sfx, r2)
    | none => some (.number v1 [], r1)

/-- Hexadecimal digit test for `#H…`. -/
def isHexDigit (c : Char) : Bool :=
  c.isDigit || (('a' ≤ c && c ≤ 'f') || ('A' ≤ c && c ≤ 'F'))

/-- Value of one hex digit. -/
def hexVal (c : Char) : Nat :=
  if c.isDigit then digitVal c
  else if 'a' ≤ c && c ≤ 'f' then c.toNat - 87
  else c.toNat - 55

/-- `program_data`: the `^`-alternation of symbol, decimal number with
optional suffix, non-decimal number, quoted string, finite block and
infinite block, dispatched on the first character (the alternatives'
first characters are disjoint).  The non-decimal forms require at least
one digit (with zero digits Python's `int` would raise an uncaught
`ValueError`). -/
def parseData (s : Str) : Option (Arg × Str) :=
  match skipWS s with
  | [] => none
  | '\'' :: cs => (parseQuotedRest cs.length cs).map (fun p => (.qstring p.1, p.2))
  | '#' :: cs =>
    match cs with
    | [] => none
    | '0' :: rest => some (.block rest, [])
    | c :: ds =>
      if c.isDigit then
        match parseImplFB ('#' :: cs) 0 with
        | .ok (newloc, dat) => some (.block dat, ('#' :: cs).drop newloc)
        | .error _ => none
      else if c = 'h' ∨ c = 'H' then
        let (run, r) := (ds.takeWhile isHexDigit, ds.dropWhile isHexDigit)
        if run = [] then none
        else some (.ndnumber (run.foldl (fun a d => a * 16 + hexVal d) 0), r)
      else if c = 'q' ∨ c = 'Q' then
        let octP : Char → Bool := fun d => '0' ≤ d && d ≤ '7'
        let (run, r) := (ds.takeWhile octP, ds.dropWhile octP)
        if run = [] then none
        else some (.ndnumber (run.foldl (fun a d => a * 8 + digitVal d) 0), r)
      else if c = 'b' ∨ c = 'B' then
        let binP : Char → Bool := fun d => d = '0' || d = '1'
        let (run, r) := (ds.takeWhile binP, ds.dropWhile binP)
        if run = [] then none
        else some (.ndnumber (run.foldl (fun a d => a * 2 + digitVal d) 0), r)
      else none
  | c :: _ =>
    if c.isAlpha then
      (parseWord Char.isAlpha mnBody (skipWS s)).map (fun p => (.symbol p.1, p.2))
    else if c.isDigit ∨ c = '+' ∨ c = '-' ∨ c = '.' then parseNumber (skipWS s)
    else none

/-- The `(Suppress(",") + program_data)*` tail of the argument list; a
comma not followed by program data is left unconsumed (backtracking). -/
def parseArgsRest (fuel : Nat) (s : Str) : List Arg × Str :=
  match fuel with
  | 0 => ([], s)
  | fuel+1 =>
    match skipWS s with
    | ',' :: cs =>
      match parseData cs with
      | some (a, r) =>
        let (rest, r2) := parseArgsRest fuel r
        (a :: rest, r2)
      | none => ([], s)
    | _ => ([], s)

/-- `Optional(Word(whitespace).leaveWhitespace() + delimitedList(program_data, ","))`:
at least one immediate whitespace character, then a non-empty
comma-separated argument list — all or nothing. -/
def parseWsArgs (s : Str) : Option (List Arg × Str) :=
  match s with
  | c :: _ =>
    if wsChar c then
      match parseData (s.dropWhile wsChar) with
      | some (a, r) =>
        let (rest, r2) := parseArgsRest r.length r
        some (a :: rest, r2)
      | none => none
    else none
  | [] => none

/-- `program_message_unit`: header (with included `?`) and optional
argument list. -/
def parseUnit (s : Str) : Option ((Str × List Arg) × Str) :=
  match parseHeaderQ (skipWS s) with
  | none => none
  | some (h, s1) =>
    match parseWsArgs s1 with
    | some (args, s2) => some ((h, args), s2)
    | none => some ((h, []), s1)

/-- One element of the parsed `commands` list: a program message unit, or
the text matched by the `SkipTo(StringEnd())("error")` alternative. -/
inductive Item where
  | unit (header : Str) (args : List Arg)
  | errTok (text : Str)
deriving DecidableEq, Repr

/-- `program_message` with `parseAll=True`: semicolon-separated units;
when a unit fails to parse, `SkipTo(StringEnd())` consumes the entire
remaining text (after whitespace pre-skip) as an error token — even when
that text is empty, as for a trailing `;`.  Text left over after a unit
that is neither `;` nor end of input raises a `ParseException`. -/
def parseItems : Nat → Str → Except PyErr (List Item)
  | 0, _ => .error (.nonProtocol (("fuel exhausted: unreachable").data))
  | fuel+1, s =>
    match parseUnit s with
    | none => .ok [.errTok (skipWS s)]
    | some ((h, args), rest) =>
      match skipWS rest with
      | [] => .ok [.unit h args]
      | ';' :: rest2 =>
        match parseItems fuel rest2 with
        | .ok items => .ok (.unit h args :: items)
        | .error e => .error e
      | _ => .error (.nonProtocol (("ParseException: Expected end of text").data))

/-- `scpi.parse(string)` (raising `ParseException` as an error value). -/
def parseMessage (s : Str) : Except PyErr (List Item) :=
  parseItems (s.length + 1) s

/-! ## `SCPI_receiver.process` and `process_messages` (`instrument.py`) -/

/-- A receiver: the command tree, the handler environment (mapping the
handler identifiers stored in the tree to Python callables
`handler(query, *args)`, modelled as returning an optional response
string or raising), the error log, and the configured `lineending`
attribute (set to `b"\n"` in `__init__` and never reassigned in the
repository). -/
structure Receiver where
  tree : Tree
  env : Nat → Bool → List Arg → Except PyErr (Option Str)
  errorLog : List Str
  lineending : Str

/-- The loop body of `SCPI_receiver.process`: the generator yields one
handler result per dispatched unit until an item fails.  An error-token
item raises `ProtocolError('Unparseable command …')`; an (unreachable)
empty header is skipped; otherwise `find` resolves the header and the
handler is invoked.  Since the grammar never binds a `query` result,
`command.query` is always the empty string (falsy), so handlers are
always invoked with a falsy query flag.  Returns the responses yielded
before any failure, the exception if one was raised, and the final
parent token list. -/
def dispatchAux (rc : Receiver) : List Item → List Str →
    List (Option Str) × Option PyErr × List Str
  | [], parent => ([], none, parent)
  | .errTok t :: _, parent =>
    ([], some (.protocol (("Unparseable command `").data ++ t ++ ("`").data)), parent)
  | .unit h args :: rest, parent =>
    if h = [] then dispatchAux rc rest parent
    else
      match find rc.tree h parent with
      | .error e => ([], some e, parent)
      | .ok (hid, parent1) =>
        match rc.env hid false args with
        | .error e => ([], some e, parent1)
        | .ok resp =>
          let (rs, e?, p2) := dispatchAux rc rest parent1
          (resp :: rs, e?, p2)

/-- `SCPI_receiver.process(line)`: parse, then dispatch the items in
order starting from the empty parent.  The result is the list of yielded
responses together with the exception that ended the iteration, if any. -/
def process (rc : Receiver) (line : Str) : List (Option Str) × Option PyErr :=
  match parseMessage line with
  | .error e => ([], some e)
  | .ok items =>
    let (rs, e?, _) := dispatchAux rc items []
    (rs, e?)

/-- `';'.join(responses)` demands every element be a string: a `None`
response (a handler that returned no value) raises `TypeError`, modelled
by `none`. -/
def seqOptions : List (Option Str) → Option (List Str)
  | [] => some []
  | some r :: rest => (seqOptions rest).map (r :: ·)
  | none :: _ => none

/-- `';'.join` on actual strings. -/
def joinSemicolon (rs : List Str) : Str := List.intercalate [(';' : Char)] rs

/-- The per-line body of `process_messages` *after* the line has been
decoded and upper-cased: run `process`, on a `ProtocolError` append
`f'ERROR: {line} {e}'` to the error log, and in the `finally` block put
`';'.join(responses).encode('latin1') + b'\n'` on the output queue.
Returns `(log entry appended, bytes enqueued, uncaught exception)`:
a non-`ProtocolError` from `process` is not caught (the `finally` still
enqueues first), and a `None` response makes the join itself raise
`TypeError`, so nothing is enqueued. -/
def enqueueOf (rc : Receiver) (line : Str) : Option Str × Option Str × Option PyErr :=
  let pr := process rc line
  let logEntry : Option Str :=
    match pr.2 with
    | some e => if e.isProtocolError
                then some ((("ERROR: ").data) ++ line ++ ((" ").data) ++ e.msgStr)
                else none
    | none => none
  match seqOptions pr.1 with
  | none => (logEntry, none, some (.nonProtocol (("TypeError").data)))
  | some rs =>
    (logEntry, some (joinSemicolon rs ++ ("\n").data),
     match pr.2 with
     | some e => if e.isProtocolError then none else some e
     | none => none)

/-- The per-line body of `SCPI_receiver.process_messages`: the dequeued
raw line is decoded as Latin-1 and upper-cased
(`self.iqueue.get_nowait().decode('latin1').upper()`) before processing. -/
def processMessagesLine (rc : Receiver) (raw : Str) : Option Str × Option Str × Option PyErr :=
  enqueueOf rc (strUpper raw)

/-! ## `FloatProperty` (`instrument.py`, lines 314–390) -/

/-- The value stored by a `FloatProperty`: a finite float (modelled
exactly as a rational), `np.inf`, `-np.inf` or `np.nan`. -/
inductive FVal where
  | num (q : ℚ)
  | inf
  | ninf
  | nan
deriving DecidableEq, Repr

/-- IEEE `<` on the modelled values: `nan` compares false with
everything, `inf` is above every finite value, `ninf` below. -/
def FVal.lt : FVal → FVal → Bool
  | .num a, .num b => a < b
  | .num _, .inf => true
  | .ninf, .num _ => true
  | .ninf, .inf => true
  | _, _ => false

/-- `value + step` (IEEE: `inf`, `-inf` and `nan` absorb). -/
def FVal.addQ : FVal → ℚ → FVal
  | .num a, q => .num (a + q)
  | .inf, _ => .inf
  | .ninf, _ => .ninf
  | .nan, _ => .nan

/-- The state of a `FloatProperty` (`min_max=False` becomes `none`;
`step` exists only when steppable and is initialized to `0`, never
reassigned anywhere in the repository). -/
structure FloatProperty where
  unit : Str
  min_max : Option (ℚ × ℚ)
  steppable : Bool
  value : FVal
  step : ℚ
  default_value : ℚ
deriving DecidableEq, Repr

/-- `FloatProperty.__init__` (the handler-slot `readonly`/`setonly`
plumbing does not affect the stored state). -/
def FloatProperty.init (unit : Str) (min_max : Option (ℚ × ℚ) := none)
    (steppable : Bool := false) (default_value : ℚ := 0) : FloatProperty :=
  { unit := strUpper unit, min_max := min_max, steppable := steppable,
    value := .num default_value, step := 0, default_value := default_value }

/-- The final clamping step of `FloatProperty.setter`: when `min_max` is
set, a value below the lower bound becomes the lower bound and a value
above the upper bound becomes the upper bound (`nan` compares false both
times and passes through unchanged). -/
def fpClamp (mm : Option (ℚ × ℚ)) (v : FVal) : FVal :=
  match mm with
  | none => v
  | some (lo, hi) =>
    if FVal.lt v (.num lo) then .num lo
    else if FVal.lt (.num hi) v then .num hi
    else v

/-- The `factor` computation of `FloatProperty.setter`'s numeric branch
(lines 367–376): a suffix that ends with the configured unit is stripped
into an SI prefix whose factor is looked up (special-casing `MOHM` and
`MHZ` to `1e6`; an unknown prefix raises an uncaught `KeyError`); any
other suffix — or none — leaves the factor at `1`. -/
def fpFactor (st : FloatProperty) (sfx : Str) : Except PyErr ℚ :=
  if sfx ≠ [] then
    if List.isSuffixOf st.unit sfx then
      let pfx := if st.unit.length = 0 then ([] : Str)
                 else sfx.take (sfx.length - st.unit.length)
      if pfx ≠ [] then
        if sfx = ("MOHM").data ∨ sfx = ("MHZ").data then pure ((10:ℚ)^(6:Nat))
        else
          match lookupQ pfx SI_prefixes with
          | some f => pure f
          | none => .error (.nonProtocol (("KeyError").data))
      else pure (1 : ℚ)
    else pure (1 : ℚ)
  else pure (1 : ℚ)

/-- The value assigned by `FloatProperty.setter(parse_value)` before the
final clamp (lines 335–379). -/
def FloatProperty.setterValue (st : FloatProperty) (pv : Arg) :
    Except PyErr FVal :=
  match pv with
  | .symbol s =>
    if s = ("MAX").data ∨ s = ("MAXIMUM").data then
      match st.min_max with
      | some mm => pure (.num mm.2)
      | none => .error (.protocol (("no known maximum value").data))
    else if s = ("MIN").data ∨ s = ("MINIMUM").data then
      match st.min_max with
      | some mm => pure (.num mm.1)
      | none => .error (.protocol (("no known minimum value").data))
    else if s = ("UP").data then
      if st.steppable then pure (st.value.addQ st.step)
      else .error (.protocol (("not steppable").data))
    else if s = ("DOWN").data then
      if st.steppable then pure (st.value.addQ (-st.step))
      else .error (.protocol (("not steppable").data))
    else if s = ("DEF").data ∨ s = ("DEFAULT").data then
      pure (.num st.default_value)
    else if s = ("INF").data ∨ s = ("INFINITY").data then
      pure .inf
    else if s = ("NINF").data ∨ s = ("NINFINITY").data then
      pure .ninf
    else if s = ("NAN").data then
      pure .nan
    else .error (.protocol (("Unrecognized value ").data ++ s))
  | .number v sfx => do
    let factor ← fpFactor st sfx
    pure (.num (v * factor))
  | _ => .error (.protocol (("not a float value").data))

/-- `FloatProperty.setter(parse_value)` (lines 333–385): assign the new
value, then clamp it against `min_max` (lines 381–385). -/
def FloatProperty.setter (st : FloatProperty) (pv : Arg) :
    Except PyErr FloatProperty :=
  (st.setterValue pv).map (fun w => { st with value := fpClamp st.min_max w })

/-! ## The ramp loop of `AMI420_RampThread.ramp` (`AMI420.py`, lines 70–84)

The uninterrupted inner loop over exact arithmetic: per tick the field
moves by `min(field_rate * tick, |field - target|)` toward the target;
when the field equals the target the loop sets the terminal state
(`AT_ZERO` for target `0`, else `HOLDING`) and returns.  Cancellation
flags, the voltage update and the message queue are outside this model. -/

/-- The states of `AMI420_RampThread.State`. -/
inductive RampState where
  | RAMPING
  | HOLDING
  | PAUSED
  | MANUAL_UP_RAMPING
  | MANUAL_DOWN_RAMPING
  | ZEROING
  | QUENCHED
  | HEATING
  | AT_ZERO
deriving DecidableEq, Repr

/-- One iteration of the field update:
`dB = min(field_rate * tick, abs(field - target))`;
`field += dB * direction` with `direction = -1 if field > target else 1`. -/
def rampStep (target rate tick field : ℚ) : ℚ :=
  let direction : ℚ := if target < field then -1 else 1
  let dB := min (rate * tick) |field - target|
  field + dB * direction

/-- The field after `n` uninterrupted iterations from `f0`. -/
def fieldIter (target rate tick f0 : ℚ) : Nat → ℚ
  | 0 => f0
  | n+1 => rampStep target rate tick (fieldIter target rate tick f0 n)

/-- The uninterrupted ramp loop with explicit fuel: apply the step, and
if the field has reached the target exactly, exit with the terminal
state; otherwise continue. -/
def rampLoop (target rate tick : ℚ) : Nat → ℚ → Option (ℚ × RampState)
  | 0, _ => none
  | fuel+1, field =>
    let f1 := rampStep target rate tick field
    if f1 = target then some (f1, if target = 0 then .AT_ZERO else .HOLDING)
    else rampLoop target rate tick fuel f1

/-! ## Concrete fixtures

The receiver of `test_instrument.py` / spec §8: the eight commands
`:FREQUENCY:START`, `:FREQUENCY:STOP`, `:FREQUENCY:SLEW`,
`:FREQUENCY:SLEW:AUTO`, `:FREQUENCY:BANDWIDTH`, `:POWER:START`,
`:POWER:STOP`, `:BAND`, each with a handler that returns the command
name (`thandler_gs`). -/

/-- Register a list of commands in order (`ignore_case=True`). -/
def buildTree : List (Str × Nat) → Tree → Except PyErr Tree
  | [], t => .ok t
  | (cmd, h) :: rest, t =>
    match addCommand t cmd h true with
    | .error e => .error e
    | .ok t1 => buildTree rest t1

/-- The eight test commands with handler identifiers 1–8. -/
def testCmds : List (Str × Nat) :=
  [((":FREQUENCY:START").data, 1), ((":FREQUENCY:STOP").data, 2),
   ((":FREQUENCY:SLEW").data, 3), ((":FREQUENCY:SLEW:AUTO").data, 4),
   ((":FREQUENCY:BANDWIDTH").data, 5), ((":POWER:START").data, 6),
   ((":POWER:STOP").data, 7), ((":BAND").data, 8)]

/-- The command name registered under each handler identifier. -/
def testName (i : Nat) : Str :=
  match i with
  | 1 => (":FREQUENCY:START").data
  | 2 => (":FREQUENCY:STOP").data
  | 3 => (":FREQUENCY:SLEW").data
  | 4 => (":FREQUENCY:SLEW:AUTO").data
  | 5 => (":FREQUENCY:BANDWIDTH").data
  | 6 => (":POWER:START").data
  | 7 => (":POWER:STOP").data
  | 8 => (":BAND").data
  | _ => []

/-- The tree built from the eight registrations. -/
def tree8 : Tree :=
  match buildTree testCmds emptyTree with
  | .ok t => t
  | .error _ => emptyTree

/-- `thandler_gs`: every handler returns its command name on any form. -/
def recv8 : Receiver :=
  ⟨tree8, fun i _ _ => .ok (some (testName i)), [], ("\n").data⟩

/-- A receiver with a succeeding unit `:AAA` (string response `RA`), a
unit `:BBB` whose handler raises a `ProtocolError`, and a set-style unit
`:CCC` whose handler returns no value (`None`). -/
def treeABC : Tree :=
  match buildTree [((":AAA").data, 1), ((":BBB").data, 2), ((":CCC").data, 3)] emptyTree with
  | .ok t => t
  | .error _ => emptyTree

/-- The handler environment for `treeABC`. -/
def envABC : Nat → Bool → List Arg → Except PyErr (Option Str) :=
  fun i _ _ =>
    if i = 1 then .ok (some (("RA").data))
    else if i = 2 then .error (.protocol (("boom").data))
    else .ok none

/-- The `:AAA`/`:BBB`/`:CCC` receiver. -/
def recvABC : Receiver := ⟨treeABC, envABC, [], ("\n").data⟩

/-- The tree obtained by registering the mixed-case pattern `:POWer:STOP`
with `ignore_case=True` (handler `1`). -/
def powTree : Tree :=
  match addCommand emptyTree ((":POWer:STOP").data) 1 true with
  | .ok t => t
  | .error _ => emptyTree

/-- A `FloatProperty` with bounds `(0, 10)` (unit `V`). -/
def fpV : FloatProperty := FloatProperty.init (("V").data) (some (0, 10))

/-! ## Definitions for the short-form alias invariant (claim C4)

The spec derives the short mnemonic from the *upper-cased* long form;
the code derives it from the token *as written* (`tkn[3] in 'AEIOUY'`
before upper-casing).  The two agree exactly on upper-case tokens, so the
invariant development below is phrased for registration sequences whose
patterns are written in upper case. -/

/-- The short form of an upper-case tree key: first 3 characters when the
key is longer than 3 and its 4th character is an upper-case vowel, else
its first 4 characters when longer than 4.  On upper-case tokens this is
exactly what `add_command` computes (see `shortOf`). -/
def shortFormU (k : Str) : Option Str :=
  if 3 < k.length ∧ k.getD 3 ' ' ∈ vowelsAEIOUY then some (k.take 3)
  else if 4 < k.length then some (k.take 4)
  else none

/-- The alias invariant: in every dictionary of the store, every
non-common key (not starting with `*`) that has a short form also has
that short form bound as a key, aliased to the *same* child node. -/
def TreeInv (t : Tree) : Prop :=
  ∀ (i : Nat) (k : Str) (id : Nat) (s : Str),
    lookupA k (getNode t i).children = some id →
    k.head? ≠ some '*' →
    shortFormU k = some s →
    lookupA s (getNode t i).children = some id

/-- Trees reachable from the empty tree by *successful*
`add_command(..., ignore_case=True)` registrations whose pattern strings
are upper-case and whose compound patterns contain no `*`. -/
inductive ReachableUpper : Tree → Prop
  | init : ReachableUpper emptyTree
  | step (t t1 : Tree) (cmd : Str) (h : Nat) :
      ReachableUpper t →
      strUpper cmd = cmd →
      (cmd.head? = some '*' ∨ ('*' : Char) ∉ cmd) →
      addCommand t cmd h true = .ok t1 →
      ReachableUpper t1

/-- One token substituted by the registration-derived short form:
either kept, or replaced by its short form (common `*` tokens have no
short form). -/
def SubstTok (a b : Str) : Prop :=
  b = a ∨ (shortFormU a = some b ∧ a.head? ≠ some '*')

/-! # Theorems -/

/-- The generator loop of `process` is compositional: dispatching
`us ++ vs` dispatches `us` first and, if no exception was raised,
continues with `vs` from the parent left by `us`. -/
theorem dispatchAux_append (rc : Receiver) (us vs : List Item) (p : List Str) :
    dispatchAux rc (us ++ vs) p =
      match dispatchAux rc us p with
      | (rs, some e, p1) => (rs, some e, p1)
      | (rs, none, p1) =>
        (rs ++ (dispatchAux rc vs p1).1, (dispatchAux rc vs p1).2.1,
         (dispatchAux rc vs p1).2.2) := by
  induction us generalizing p with
  | nil => simp [dispatchAux]
  | cons i rest ih =>
    cases i with
    | errTok t => simp [dispatchAux]
    | unit h args =>
      by_cases hh : h = []
      · simpa [dispatchAux, hh] using ih p
      · simp only [List.cons_append, dispatchAux, if_neg hh]
        rcases hf : find rc.tree h p with e | ⟨hid, p1⟩
        · simp
        · rcases he : rc.env hid false args with e | resp
          · simp [he]
          · rcases h0 : dispatchAux rc rest p1 with ⟨rs0, e0, p0⟩
            rcases e0 with _ | e0 <;> simp [he, ih p1, h0]

/-- If dispatching the single item `b` raises, dispatching `b :: vs`
raises the same exception with no responses, and `vs` is never reached. -/
theorem dispatchAux_head_err (rc : Receiver) (b : Item) (vs : List Item)
    (p : List Str) (e : PyErr) (hb : (dispatchAux rc [b] p).2.1 = some e) :
    dispatchAux rc (b :: vs) p = ([], some e, (dispatchAux rc [b] p).2.2) := by
  cases b with
  | errTok t => simp_all [dispatchAux]
  | unit h args =>
    by_cases hh : h = []
    · simp [dispatchAux, hh] at hb
    · simp only [dispatchAux, if_neg hh] at hb ⊢
      rcases hf : find rc.tree h p with e1 | ⟨hid, p1⟩
      · simp_all
      · rcases he : rc.env hid false args with e1 | resp
        · simp_all
        · simp [hf, he, dispatchAux] at hb

/-- C1.  `get_float_value` resolves the symbol `MAX`/`MAXIMUM` to the
*lower* bound `min_max[0]` and `MIN`/`MINIMUM` to the *upper* bound
`min_max[1]`, for every bounds pair, default and units configuration —
the inverse of the convention the spec documents (`MAX → upper bound`,
`MIN → lower bound`); in particular with bounds `(0, 100)` the symbol
`MAX` resolves to `0`, not `100`. -/
theorem c1_max_min_inverted_eval :
    ∀ (lo hi : ℚ) (default : Option ℚ) (units : UnitsSpec),
      getFloatValue (.symbol (("MAX").data)) (lo, hi) default units = .ok lo ∧
      getFloatValue (.symbol (("MAXIMUM").data)) (lo, hi) default units = .ok lo ∧
      getFloatValue (.symbol (("MIN").data)) (lo, hi) default units = .ok hi ∧
      getFloatValue (.symbol (("MINIMUM").data)) (lo, hi) default units = .ok hi ∧
      (getFloatValue (.symbol (("MAX").data)) (0, 100) default units = .ok 0 ∧
       (0 : ℚ) ≠ 100) := by
  intro lo hi d u
  exact ⟨rfl, rfl, rfl, rfl, rfl, by decide⟩

/-- C2.  A header with neither `:` nor `*` prefix (shorthand form) is
resolved by `find` as `parent ++ headerTokens` from the tree root, and
the new parent is `parent ++ headerTokens` minus the final mnemonic
(an unknown path raises `ProtocolError`).  Concretely, on the registered
test tree, `"FREQ:STAR 3 MHZ;STOP 5 MHZ"` invokes the
`:FREQUENCY:START` handler then the `:FREQUENCY:STOP` handler, while
`"FREQ:STAR 3 MHZ;POW:STOP 5 DBM"` raises an unsupported-command error
on the second unit. -/
theorem c2_shorthand_header_resolution :
    (∀ (t : Tree) (parent : List Str) (header first : Str) (restT : List Str),
       splitOnChar ':' header = first :: restT →
       first ≠ [] →
       first.head? ≠ some '*' →
       find t header parent =
         match resolveTokens t (parent ++ first :: restT) with
         | none => .error (.protocol ((("Unknown command ").data) ++ header))
         | some h => .ok (h, parent ++ (first :: restT).dropLast)) ∧
    process recv8 (("FREQ:STAR 3 MHZ;STOP 5 MHZ").data) =
      ([some ((":FREQUENCY:START").data), some ((":FREQUENCY:STOP").data)], none) ∧
    process recv8 (("FREQ:STAR 3 MHZ;POW:STOP 5 DBM").data) =
      ([some ((":FREQUENCY:START").data)],
       some (.protocol (("Unknown command POW:STOP").data))) := by
  refine ⟨?_, by decide, by decide⟩
  intro t parent header first restT hsplit hne hstar
  simp only [find, hsplit, if_neg hne, if_neg hstar]

/-- Witness for C2: the shorthand header `STOP` under parent
`[FREQUENCY]` resolves on the test tree to handler `2`
(`:FREQUENCY:STOP`) with the parent unchanged. -/
theorem c2_witness :
    find tree8 (("STOP").data) [(("FREQUENCY").data)] =
      .ok (2, [(("FREQUENCY").data)]) := by
  have h := c2_shorthand_header_resolution.1 tree8 [(("FREQUENCY").data)]
    (("STOP").data) (("STOP").data) [] (by decide) (by decide) (by decide)
  simpa using h

/-- C3.  For a line parsing to `us ++ b :: vs` where the units `us`
dispatch without error producing string responses and `b` raises a
`ProtocolError`: `process` yields exactly the responses before `b`
together with the exception (the units after `b` are never dispatched),
and the `process_messages` body appends `ERROR: {line} {e}` to the error
log yet still enqueues the responses produced before the failure, joined
with `;` and terminated by `b'\n'`, raising nothing. -/
theorem c3_partial_responses_preserved
    (rc : Receiver) (line : Str) (us : List Item) (b : Item) (vs : List Item)
    (pmid : List Str) (rs : List (Option Str)) (strs : List Str) (e : PyErr)
    (hparse : parseMessage line = .ok (us ++ b :: vs))
    (hpre : dispatchAux rc us [] = (rs, none, pmid))
    (hseq : seqOptions rs = some strs)
    (hb : (dispatchAux rc [b] pmid).2.1 = some e)
    (hprot : e.isProtocolError = true) :
    process rc line = (rs, some e) ∧
    enqueueOf rc line =
      (some ((("ERROR: ").data) ++ line ++ ((" ").data) ++ e.msgStr),
       some (joinSemicolon strs ++ ("\n").data), none) := by
  have hstep := dispatchAux_head_err rc b vs pmid e hb
  have hdisp : dispatchAux rc (us ++ b :: vs) [] = (rs, some e, (dispatchAux rc [b] pmid).2.2) := by
    rw [dispatchAux_append, hpre]
    simp [hstep]
  have hproc : process rc line = (rs, some e) := by
    simp [process, hparse, hdisp]
  refine ⟨hproc, ?_⟩
  simp [enqueueOf, hproc, hprot, hseq]

/-- Witness for C3: on the `:AAA`/`:BBB` receiver, the line
`AAA;BBB;AAA` yields `RA`, raises `boom`, logs it, and still enqueues
`RA\n`; the third unit is never dispatched. -/
theorem c3_witness :
    process recvABC (("AAA;BBB;AAA").data) =
      ([some (("RA").data)], some (.protocol (("boom").data))) ∧
    enqueueOf recvABC (("AAA;BBB;AAA").data) =
      (some ((("ERROR: ").data) ++ (("AAA;BBB;AAA").data) ++ ((" ").data) ++
         (PyErr.protocol (("boom").data)).msgStr),
       some (joinSemicolon [(("RA").data)] ++ ("\n").data), none) :=
  c3_partial_responses_preserved recvABC (("AAA;BBB;AAA").data)
    [.unit (("AAA").data) []] (.unit (("BBB").data) []) [.unit (("AAA").data) []]
    [] [some (("RA").data)] [(("RA").data)] (.protocol (("boom").data))
    (by decide) (by decide) (by decide) (by decide) (by decide)

/-- C5.  A unit whose handler returns no value (`None`) — a set unit —
makes `';'.join(responses)` raise `TypeError` inside the `finally`
block of `process_messages`: nothing is enqueued and the exception
escapes, even though every unit dispatched without error.  A line whose
units all return strings is enqueued as the `;`-joined responses
terminated by `b'\n'` without raising. -/
theorem c5_set_unit_response_poisons_join :
    process recvABC (("AAA;CCC").data) = ([some (("RA").data), none], none) ∧
    processMessagesLine recvABC (("AAA;CCC").data) =
      (none, none, some (.nonProtocol (("TypeError").data))) ∧
    processMessagesLine recvABC (("AAA;AAA").data) =
      (none, some (("RA;RA\n").data), none) := by
  exact ⟨by decide, by decide, by decide⟩

/-- C8 counterexample.  On the line `AAA;;BBB` the empty unit is *not*
a no-op: the grammar's `SkipTo(StringEnd())` alternative swallows
`;BBB` as an unparseable-text token, `:AAA` is dispatched but `process`
then raises `ProtocolError('Unparseable command …')` and `:BBB` is never
dispatched; a trailing `;` (line `AAA;`) likewise raises after `:AAA`. -/
theorem c8_counterexample :
    parseMessage (("AAA;;BBB").data) =
      .ok [.unit (("AAA").data) [], .errTok ((";BBB").data)] ∧
    process recvABC (("AAA;;BBB").data) =
      ([some (("RA").data)],
       some (.protocol (("Unparseable command `;BBB`").data))) ∧
    process recvABC (("AAA;").data) =
      ([some (("RA").data)],
       some (.protocol (("Unparseable command ``").data))) := by
  exact ⟨by decide, by decide, by decide⟩

/-- C8 amended.  An empty program-message unit is parsed (the line does
not fail to parse) but is not skipped: the error-token alternative
captures the rest of the line, the units before it are dispatched
normally, and `process` then raises
`ProtocolError('Unparseable command …')`, aborting every later unit. -/
theorem c8_amended_empty_unit_aborts
    (rc : Receiver) (us : List Item) (t : Str) (rest : List Item)
    (p pmid : List Str) (rs : List (Option Str))
    (hpre : dispatchAux rc us p = (rs, none, pmid)) :
    dispatchAux rc (us ++ .errTok t :: rest) p =
      (rs, some (.protocol ((("Unparseable command `").data) ++ t ++ (("`").data))),
       pmid) := by
  rw [dispatchAux_append, hpre]
  simp [dispatchAux]

/-- Witness for C8: dispatching `AAA` then an error token on the
`:AAA`/`:BBB` receiver yields `RA` and then raises. -/
theorem c8_witness :
    dispatchAux recvABC [.unit (("AAA").data) [], .errTok ((";BBB").data)] [] =
      ([some (("RA").data)],
       some (.protocol ((("Unparseable command `").data) ++ ((";BBB").data) ++ (("`").data))),
       []) := by
  have h := c8_amended_empty_unit_aborts recvABC [.unit (("AAA").data) []]
    ((";BBB").data) [] [] [] [some (("RA").data)] (by decide)
  simpa using h

/-- C9.  `process_messages` upper-cases the entire received line (after
Latin-1 decoding) before parsing and dispatch: its per-line behavior is
the post-upper-case pipeline applied to `strUpper raw`, and two raw
lines with the same upper-case image produce identical log entries,
identical enqueued bytes and identical exceptions — lower-case payload
(including quoted-string and block content) can never reach a handler. -/
theorem c9_uppercase_case_insensitive :
    (∀ (rc : Receiver) (raw : Str),
       processMessagesLine rc raw = enqueueOf rc (strUpper raw)) ∧
    (∀ (rc : Receiver) (l1 l2 : Str), strUpper l1 = strUpper l2 →
       processMessagesLine rc l1 = processMessagesLine rc l2) := by
  refine ⟨fun rc raw => rfl, fun rc l1 l2 h => ?_⟩
  unfold processMessagesLine
  rw [h]

/-- Witness for C9: a lower-case spelling of `AAA;BBB;AAA` behaves
exactly like the upper-case one. -/
theorem c9_witness :
    processMessagesLine recvABC (("aaa;bBb;aAa").data) =
      processMessagesLine recvABC (("AAA;BBB;AAA").data) :=
  c9_uppercase_case_insensitive.2 recvABC (("aaa;bBb;aAa").data)
    (("AAA;BBB;AAA").data) (by decide)

/-- Clamping a non-`nan` value against bounds `lo ≤ hi` lands in `[lo, hi]`. -/
theorem fpClamp_mem (lo hi : ℚ) (hlh : lo ≤ hi) (v : FVal) (hv : v ≠ .nan) :
    ∃ q : ℚ, fpClamp (some (lo, hi)) v = .num q ∧ lo ≤ q ∧ q ≤ hi := by
  cases v with
  | num a =>
    by_cases h1 : a < lo
    · exact ⟨lo, by simp [fpClamp, FVal.lt, h1], le_refl lo, hlh⟩
    · by_cases h2 : hi < a
      · exact ⟨hi, by simp [fpClamp, FVal.lt, h1, h2], hlh, le_refl hi⟩
      · exact ⟨a, by simp [fpClamp, FVal.lt, h1, h2], le_of_not_lt h1, le_of_not_lt h2⟩
  | inf => exact ⟨hi, by simp [fpClamp, FVal.lt], hlh, le_refl hi⟩
  | ninf => exact ⟨lo, by simp [fpClamp, FVal.lt], le_refl lo, hlh⟩
  | nan => exact absurd rfl hv

/-- `value + q` is `nan` only if the value already was. -/
theorem FVal.addQ_ne_nan (v : FVal) (q : ℚ) (hv : v ≠ .nan) : v.addQ q ≠ .nan := by
  cases v <;> simp_all [FVal.addQ]

/-- The value assigned by `FloatProperty.setter` before the clamp is
`nan` only for the `NAN` symbol or a previously-`nan` value propagated
by `UP`/`DOWN`. -/
theorem setterValue_ne_nan (st : FloatProperty) (pv : Arg) (w : FVal)
    (hok : st.setterValue pv = .ok w)
    (hnan : pv ≠ .symbol (("NAN").data)) (hv : st.value ≠ .nan) :
    w ≠ .nan := by
  cases pv with
  | symbol s =>
    have hS : s ≠ ("NAN").data := fun h => hnan (by rw [h])
    simp only [FloatProperty.setterValue] at hok
    rw [if_neg hS] at hok
    repeat' split at hok
    all_goals try exact Except.noConfusion hok
    all_goals injection hok with hw
    all_goals subst hw
    all_goals first
      | exact FVal.addQ_ne_nan _ _ hv
      | simp
  | number v sfx =>
    simp only [FloatProperty.setterValue] at hok
    rcases hf : fpFactor st sfx with e | f <;> rw [hf] at hok <;>
      simp only [bind, Except.bind, pure, Except.pure, Except.ok.injEq,
        reduceCtorEq] at hok
    subst hok
    simp
  | ndnumber n => simp [FloatProperty.setterValue] at hok
  | qstring s => simp [FloatProperty.setterValue] at hok
  | block b => simp [FloatProperty.setterValue] at hok

/-- C6 counterexample.  The `NAN` symbol is accepted by the setter of a
bounds-carrying `FloatProperty` but stores `nan`, which both clamp
comparisons answer `false` for — the stored value satisfies no bound. -/
theorem c6_counterexample :
    fpV.setter (.symbol (("NAN").data)) = .ok { fpV with value := .nan } ∧
    ∀ q : ℚ, FVal.nan ≠ FVal.num q := by
  refine ⟨by decide, fun q h => ?_⟩
  cases h

/-- C6 amended.  For a `FloatProperty` with bounds `min_max = (lo, hi)`,
`lo ≤ hi`, any accepted setter argument other than the symbol `NAN`
(and from a non-`nan` current value, which `UP`/`DOWN` propagate)
leaves a stored value in `[lo, hi]`; in particular a numeric argument
whose converted value lies outside the range is silently clamped to the
nearest bound rather than rejected. -/
theorem c6_amended (st : FloatProperty) (lo hi : ℚ) (pv : Arg) (st1 : FloatProperty)
    (hmm2 : st.min_max = some (lo, hi)) (hlh : lo ≤ hi)
    (hnan : pv ≠ .symbol (("NAN").data)) (hv : st.value ≠ .nan)
    (hok : st.setter pv = .ok st1) :
    ∃ q : ℚ, st1.value = .num q ∧ lo ≤ q ∧ q ≤ hi := by
  unfold FloatProperty.setter at hok
  rcases ha : st.setterValue pv with e | w <;> rw [ha] at hok
  · simp [Except.map] at hok
  · simp only [Except.map, Except.ok.injEq] at hok
    have hw : w ≠ .nan := setterValue_ne_nan st pv w ha hnan hv
    rw [← hok]
    simp only
    rw [hmm2]
    exact fpClamp_mem lo hi hlh w hw

/-- Witness for C6: setting `MAX` on the `(0, 10)`-bounded property
stores `10 ∈ [0, 10]`. -/
theorem c6_witness :
    (0:ℚ) ≤ 10 ∧
    ∃ q : ℚ, ({ fpV with value := .num 10 } : FloatProperty).value = .num q ∧
      0 ≤ q ∧ q ≤ 10 :=
  ⟨by decide, c6_amended fpV 0 10 (.symbol (("MAX").data)) { fpV with value := .num 10 }
    (by decide) (by decide) (by decide) (by decide) (by decide)⟩

/-- With a nonnegative increment, a field already at the target is not
moved by a further iteration. -/
theorem rampStep_fixed (target rate tick : ℚ) (h : 0 ≤ rate * tick) :
    rampStep target rate tick target = target := by
  simp [rampStep, min_eq_right h]

/-- One uninterrupted iteration moves a field strictly toward the target
without overshooting. -/
theorem rampStep_toward (target rate tick f : ℚ) (hpos : 0 < rate * tick) :
    (f < target → f < rampStep target rate tick f ∧ rampStep target rate tick f ≤ target) ∧
    (target < f → rampStep target rate tick f < f ∧ target ≤ rampStep target rate tick f) := by
  constructor
  · intro hlt
    have habs : |f - target| = target - f := by
      rw [abs_sub_comm]; exact abs_of_pos (sub_pos.mpr hlt)
    have hdir : rampStep target rate tick f = f + min (rate * tick) (target - f) := by
      simp only [rampStep]
      rw [if_neg (not_lt.mpr hlt.le), habs]
      ring
    have hmin : 0 < min (rate * tick) (target - f) := lt_min hpos (sub_pos.mpr hlt)
    have hmr := min_le_right (rate * tick) (target - f)
    constructor
    · rw [hdir]; linarith
    · rw [hdir]; linarith
  · intro hgt
    have habs : |f - target| = f - target := abs_of_pos (sub_pos.mpr hgt)
    have hdir : rampStep target rate tick f = f - min (rate * tick) (f - target) := by
      simp only [rampStep]
      rw [if_pos hgt, habs]
      ring
    have hmin : 0 < min (rate * tick) (f - target) := lt_min hpos (sub_pos.mpr hgt)
    have hmr := min_le_right (rate * tick) (f - target)
    constructor
    · rw [hdir]; linarith
    · rw [hdir]; linarith

/-- When the remaining distance is at most one increment, the next
iteration reaches the target exactly. -/
theorem rampStep_hit (target rate tick f : ℚ)
    (hle : |f - target| ≤ rate * tick) : rampStep target rate tick f = target := by
  by_cases hgt : target < f
  · have habs : |f - target| = f - target := abs_of_pos (sub_pos.mpr hgt)
    simp only [rampStep]
    rw [if_pos hgt, habs, min_eq_right (habs ▸ hle)]
    ring
  · have hle2 : f ≤ target := not_lt.mp hgt
    have habs : |f - target| = target - f := by
      rw [abs_sub_comm]; exact abs_of_nonneg (sub_nonneg.mpr hle2)
    simp only [rampStep]
    rw [if_neg hgt, habs, min_eq_right (habs ▸ hle)]
    ring

/-- When the remaining distance exceeds one increment, the iteration
shortens it by exactly one increment and does not reach the target. -/
theorem rampStep_far (target rate tick f : ℚ) (hpos : 0 < rate * tick)
    (hfar : rate * tick < |f - target|) :
    |rampStep target rate tick f - target| = |f - target| - rate * tick ∧
    rampStep target rate tick f ≠ target := by
  by_cases hgt : target < f
  · have habs : |f - target| = f - target := abs_of_pos (sub_pos.mpr hgt)
    have hdir : rampStep target rate tick f = f - rate * tick := by
      simp only [rampStep]
      rw [if_pos hgt, habs, min_eq_left (habs ▸ hfar).le]
      ring
    have h2 : 0 < f - rate * tick - target := by
      rw [habs] at hfar; linarith
    constructor
    · rw [hdir, habs, abs_of_pos h2]; ring
    · rw [hdir]; intro hEq; rw [hEq] at h2; linarith
  · have hle2 : f ≤ target := not_lt.mp hgt
    have hlt : f < target := by
      rcases eq_or_lt_of_le hle2 with hEq | hlt
      · exfalso; rw [hEq] at hfar; simp at hfar; linarith
      · exact hlt
    have habs : |f - target| = target - f := by
      rw [abs_sub_comm]; exact abs_of_pos (sub_pos.mpr hlt)
    have hdir : rampStep target rate tick f = f + rate * tick := by
      simp only [rampStep]
      rw [if_neg hgt, habs, min_eq_left (habs ▸ hfar).le]
      ring
    have h2 : 0 < target - (f + rate * tick) := by
      rw [habs] at hfar; linarith
    constructor
    · rw [hdir, habs]
      rw [abs_sub_comm, abs_of_pos h2]
      ring
    · rw [hdir]; intro hEq; rw [hEq] at h2; linarith

/-- With enough fuel relative to the initial distance, the uninterrupted
loop exits at the target with the terminal state of the source
(`AT_ZERO` for target `0`, else `HOLDING`). -/
theorem rampLoop_reaches (target rate tick : ℚ) (hpos : 0 < rate * tick) :
    ∀ (k : Nat) (f : ℚ), |f - target| ≤ ((k : ℚ) + 1) * (rate * tick) →
      rampLoop target rate tick (k + 1) f =
        some (target, if target = 0 then RampState.AT_ZERO else RampState.HOLDING) := by
  intro k
  induction k with
  | zero =>
    intro f hle
    have hstep := rampStep_hit target rate tick f (by simpa using hle)
    simp [rampLoop, hstep]
  | succ k ih =>
    intro f hle
    by_cases hsmall : |f - target| ≤ rate * tick
    · have hstep := rampStep_hit target rate tick f hsmall
      simp [rampLoop, hstep]
    · push_neg at hsmall
      obtain ⟨habs, hne⟩ := rampStep_far target rate tick f hpos hsmall
      have h2 : |rampStep target rate tick f - target| ≤ ((k : ℚ) + 1) * (rate * tick) := by
        rw [habs]
        push_cast at hle ⊢
        linarith
      have hrec := ih (rampStep target rate tick f) h2
      simp only [rampLoop]
      rw [if_neg hne]
      exact hrec

/-- Extra fuel never changes a loop result that was already reached. -/
theorem rampLoop_fuel_mono (target rate tick : ℚ) :
    ∀ (fuel : Nat) (f : ℚ) (r : ℚ × RampState),
      rampLoop target rate tick fuel f = some r →
      rampLoop target rate tick (fuel + 1) f = some r := by
  intro fuel
  induction fuel with
  | zero => intro f r h; simp [rampLoop] at h
  | succ n ih =>
    intro f r h
    simp only [rampLoop] at h ⊢
    by_cases hEq : rampStep target rate tick f = target
    · rw [if_pos hEq] at h ⊢; exact h
    · rw [if_neg hEq] at h ⊢; exact ih _ _ h

/-- Fuel monotonicity, iterated. -/
theorem rampLoop_fuel_le (target rate tick : ℚ) (f : ℚ) (r : ℚ × RampState)
    (fuel fuel2 : Nat) (hle : fuel ≤ fuel2)
    (h : rampLoop target rate tick fuel f = some r) :
    rampLoop target rate tick fuel2 f = some r := by
  induction fuel2, hle using Nat.le_induction with
  | base => exact h
  | succ n hn ih => exact rampLoop_fuel_mono target rate tick n f r ih

/-- Shifting one iteration out of the iterated field sequence. -/
theorem fieldIter_shift (target rate tick f0 : ℚ) (n : Nat) :
    fieldIter target rate tick f0 (n + 1) =
      fieldIter target rate tick (rampStep target rate tick f0) n := by
  induction n with
  | zero => rfl
  | succ n ih =>
    calc fieldIter target rate tick f0 (n + 1 + 1)
        = rampStep target rate tick (fieldIter target rate tick f0 (n + 1)) := rfl
      _ = rampStep target rate tick
            (fieldIter target rate tick (rampStep target rate tick f0) n) := by rw [ih]
      _ = fieldIter target rate tick (rampStep target rate tick f0) (n + 1) := rfl

/-- Once the field sequence reaches the target it stays there. -/
theorem fieldIter_stays (target rate tick f0 : ℚ) (hpos : 0 ≤ rate * tick) (N : Nat)
    (h : fieldIter target rate tick f0 N = target) :
    ∀ n, N ≤ n → fieldIter target rate tick f0 n = target := by
  intro n hn
  induction n, hn using Nat.le_induction with
  | base => exact h
  | succ n hn ih =>
    simp only [fieldIter, ih]
    exact rampStep_fixed target rate tick hpos

/-- With enough iterations relative to the initial distance, the field
sequence reaches the target exactly. -/
theorem fieldIter_reaches_aux (target rate tick : ℚ) (hpos : 0 < rate * tick) :
    ∀ (k : Nat) (f0 : ℚ), |f0 - target| ≤ ((k : ℚ) + 1) * (rate * tick) →
      fieldIter target rate tick f0 (k + 1) = target := by
  intro k
  induction k with
  | zero =>
    intro f0 hle
    simpa [fieldIter] using rampStep_hit target rate tick f0 (by simpa using hle)
  | succ k ih =>
    intro f0 hle
    by_cases hsmall : |f0 - target| ≤ rate * tick
    · have h1 : fieldIter target rate tick f0 1 = target := by
        simpa [fieldIter] using rampStep_hit target rate tick f0 hsmall
      exact fieldIter_stays target rate tick f0 hpos.le 1 h1 (k + 2) (by omega)
    · push_neg at hsmall
      obtain ⟨habs, _⟩ := rampStep_far target rate tick f0 hpos hsmall
      rw [fieldIter_shift]
      apply ih
      rw [habs]
      push_cast at hle ⊢
      linarith

/-- C7.  Over exact arithmetic, the uninterrupted inner loop of
`AMI420_RampThread.ramp` with `field_rate > 0` and `tick > 0` moves the
field strictly monotonically toward the target without overshooting,
reaches the target exactly after finitely many iterations (and stays
there), and the loop itself exits with state `HOLDING` (`AT_ZERO` when
the target is `0`); a field at the target is never moved again. -/
theorem c7_ramp (f0 target rate tick : ℚ) (hr : 0 < rate) (ht : 0 < tick) :
    (∀ n, fieldIter target rate tick f0 n ≠ target →
       (fieldIter target rate tick f0 n < target →
          fieldIter target rate tick f0 n < fieldIter target rate tick f0 (n + 1) ∧
          fieldIter target rate tick f0 (n + 1) ≤ target) ∧
       (target < fieldIter target rate tick f0 n →
          fieldIter target rate tick f0 (n + 1) < fieldIter target rate tick f0 n ∧
          target ≤ fieldIter target rate tick f0 (n + 1))) ∧
    (∃ N, ∀ n, N ≤ n → fieldIter target rate tick f0 n = target) ∧
    (∃ fuel0, ∀ fuel, fuel0 ≤ fuel →
       rampLoop target rate tick fuel f0 =
         some (target, if target = 0 then RampState.AT_ZERO else RampState.HOLDING)) ∧
    rampStep target rate tick target = target := by
  have hpos : 0 < rate * tick := mul_pos hr ht
  obtain ⟨k, hk⟩ : ∃ k : Nat, |f0 - target| ≤ ((k : ℚ) + 1) * (rate * tick) := by
    obtain ⟨k, hk⟩ := exists_nat_ge (|f0 - target| / (rate * tick))
    refine ⟨k, ?_⟩
    rw [div_le_iff₀ hpos] at hk
    nlinarith
  refine ⟨?_, ⟨k + 1, ?_⟩, ⟨k + 1, ?_⟩, rampStep_fixed target rate tick hpos.le⟩
  · intro n _
    have ht2 := rampStep_toward target rate tick (fieldIter target rate tick f0 n) hpos
    exact ⟨fun hlt => ht2.1 hlt, fun hgt => ht2.2 hgt⟩
  · exact fieldIter_stays target rate tick f0 hpos.le (k + 1)
      (fieldIter_reaches_aux target rate tick hpos k f0 hk)
  · intro fuel hf
    exact rampLoop_fuel_le target rate tick f0 _ (k + 1) fuel hf
      (rampLoop_reaches target rate tick hpos k f0 hk)

/-- Witness for C7: the ramp from field `0` to target `10` at
`rate * tick = 10`. -/
theorem c7_witness :
    (0:ℚ) < 10 ∧ (0:ℚ) < 1 ∧
    ((∀ n, fieldIter 10 10 1 0 n ≠ 10 →
       (fieldIter 10 10 1 0 n < 10 →
          fieldIter 10 10 1 0 n < fieldIter 10 10 1 0 (n + 1) ∧
          fieldIter 10 10 1 0 (n + 1) ≤ 10) ∧
       (10 < fieldIter 10 10 1 0 n →
          fieldIter 10 10 1 0 (n + 1) < fieldIter 10 10 1 0 n ∧
          10 ≤ fieldIter 10 10 1 0 (n + 1))) ∧
    (∃ N, ∀ n, N ≤ n → fieldIter 10 10 1 0 n = 10) ∧
    (∃ fuel0, ∀ fuel, fuel0 ≤ fuel →
       rampLoop 10 10 1 fuel 0 =
         some (10, if (10:ℚ) = 0 then RampState.AT_ZERO else RampState.HOLDING)) ∧
    rampStep 10 10 1 10 = 10) :=
  ⟨by norm_num, by norm_num, c7_ramp 0 10 10 1 (by norm_num) (by norm_num)⟩

/-- A length-length digit is at least `1`. -/
theorem digitVal_pos_of_mem (c1 : Char) (hc1 : c1 ∈ ("123456789").data) :
    1 ≤ digitVal c1 := by
  fin_cases hc1 <;> decide

/-- A well-formed definite-length block whose data is followed by at
least one character parses: `parseImpl` returns the position after the
data and the data itself. -/
theorem parseImplFB_wellformed_ok
    (c1 : Char) (ldig data rest : Str)
    (hc1 : c1 ∈ ("123456789").data)
    (hlen : ldig.length = digitVal c1)
    (hdig : ∀ c ∈ ldig, c.isDigit)
    (hval : natVal ldig = data.length)
    (hrest : rest ≠ []) :
    parseImplFB ('#' :: c1 :: (ldig ++ data ++ rest)) 0 =
      .ok (2 + digitVal c1 + data.length, data) := by
  have hl1 : 1 ≤ digitVal c1 := digitVal_pos_of_mem c1 hc1
  have hldne : ldig ≠ [] := by
    intro h
    rw [h] at hlen
    simp at hlen
    omega
  have hrl : 1 ≤ rest.length := by
    cases rest with
    | nil => exact absurd rfl hrest
    | cons a l => simp
  have hLen : ('#' :: c1 :: (ldig ++ data ++ rest)).length =
      2 + (ldig.length + data.length + rest.length) := by
    simp [List.length_append, List.length_cons]
    omega
  have hassoc : ldig ++ data ++ rest = ldig ++ (data ++ rest) :=
    List.append_assoc ldig data rest
  have hdv : digitsVal? ldig = some (natVal ldig) := by
    unfold digitsVal?
    rw [if_pos ⟨hldne, List.all_eq_true.mpr (fun c hc => hdig c hc)⟩]
  unfold parseImplFB
  simp only [List.get?_cons_zero, List.get?_cons_succ]
  rw [if_neg (by simp : ¬ ('#' : Char) ≠ '#'), if_pos hc1]
  rw [if_neg (show ¬ 0 + 2 + digitVal c1 ≥ ('#' :: c1 :: (ldig ++ data ++ rest)).length by omega)]
  have hslice1 : (('#' :: c1 :: (ldig ++ data ++ rest)).drop (0 + 2)).take (digitVal c1)
      = ldig := by
    show (ldig ++ data ++ rest).take (digitVal c1) = ldig
    rw [hassoc, ← hlen, List.take_left]
  rw [hslice1]
  simp only [hdv]
  rw [if_neg (show ¬ 0 + 2 + digitVal c1 + natVal ldig ≥
        ('#' :: c1 :: (ldig ++ data ++ rest)).length by omega)]
  have hslice2 :
      (('#' :: c1 :: (ldig ++ data ++ rest)).drop (0 + 2 + digitVal c1)).take (natVal ldig)
        = data := by
    have h1 : ('#' :: c1 :: (ldig ++ data ++ rest)).drop (0 + 2 + digitVal c1)
        = (ldig ++ (data ++ rest)).drop (digitVal c1) := by
      rw [hassoc]
      rw [show 0 + 2 + digitVal c1 = digitVal c1 + 1 + 1 from by omega]
      rw [List.drop_succ_cons, List.drop_succ_cons]
    rw [h1, ← hlen, List.drop_left, hval, List.take_left]
  rw [hslice2, hval]

/-- A well-formed definite-length block whose data extends exactly to
the end of the input never parses (the `≥` length checks reject it). -/
theorem parseImplFB_wellformed_exact_end
    (c1 : Char) (ldig data : Str)
    (hc1 : c1 ∈ ("123456789").data)
    (hlen : ldig.length = digitVal c1)
    (hdig : ∀ c ∈ ldig, c.isDigit)
    (hval : natVal ldig = data.length) :
    ∀ res, parseImplFB ('#' :: c1 :: (ldig ++ data)) 0 ≠ .ok res := by
  intro res hok
  have hl1 : 1 ≤ digitVal c1 := digitVal_pos_of_mem c1 hc1
  have hldne : ldig ≠ [] := by
    intro h
    rw [h] at hlen
    simp at hlen
    omega
  have hLen : ('#' :: c1 :: (ldig ++ data)).length =
      2 + (ldig.length + data.length) := by
    simp [List.length_append, List.length_cons]
    omega
  unfold parseImplFB at hok
  simp only [List.get?_cons_zero, List.get?_cons_succ] at hok
  rw [if_neg (by simp : ¬ ('#' : Char) ≠ '#'), if_pos hc1] at hok
  by_cases hd0 : data.length = 0
  · rw [if_pos (show 0 + 2 + digitVal c1 ≥ ('#' :: c1 :: (ldig ++ data)).length by omega)]
      at hok
    exact Except.noConfusion hok
  · rw [if_neg (show ¬ 0 + 2 + digitVal c1 ≥ ('#' :: c1 :: (ldig ++ data)).length by omega)]
      at hok
    have hslice1 : (('#' :: c1 :: (ldig ++ data)).drop (0 + 2)).take (digitVal c1) = ldig := by
      show (ldig ++ data).take (digitVal c1) = ldig
      rw [← hlen, List.take_left]
    have hdv : digitsVal? ldig = some (natVal ldig) := by
      unfold digitsVal?
      rw [if_pos ⟨hldne, List.all_eq_true.mpr (fun c hc => hdig c hc)⟩]
    rw [hslice1] at hok
    simp only [hdv] at hok
    rw [if_pos (show 0 + 2 + digitVal c1 + natVal ldig ≥
          ('#' :: c1 :: (ldig ++ data)).length by omega)] at hok
    exact Except.noConfusion hok

/-- C10.  `FiniteBlock.parseImpl` accepts a well-formed definite-length
block `#` + d + (d length digits) + data *iff* at least one character
follows the block data before the end of the input (the length checks
use `≥` rather than `>`): a block whose data extends exactly to the end
of the line raises a parse exception. -/
theorem c10_finite_block_needs_trailing_char
    (c1 : Char) (ldig data rest : Str)
    (hc1 : c1 ∈ ("123456789").data)
    (hlen : ldig.length = digitVal c1)
    (hdig : ∀ c ∈ ldig, c.isDigit)
    (hval : natVal ldig = data.length) :
    parseImplFB ('#' :: c1 :: (ldig ++ data ++ rest)) 0 =
      .ok (2 + digitVal c1 + data.length, data) ↔ rest ≠ [] := by
  constructor
  · intro hok hrest
    subst hrest
    rw [List.append_nil] at hok
    exact parseImplFB_wellformed_exact_end c1 ldig data hc1 hlen hdig hval _ hok
  · intro hrest
    exact parseImplFB_wellformed_ok c1 ldig data rest hc1 hlen hdig hval hrest

/-- Witness for C10: the docstring's example block `#216stranger things;`
is accepted when one more character follows, returning exactly the
16 data bytes. -/
theorem c10_witness :
    parseImplFB ('#' :: '2' :: ((("16").data) ++ (("stranger things;").data) ++ (("!").data))) 0
      = .ok (2 + digitVal '2' + (("stranger things;").data).length,
             (("stranger things;").data)) :=
  (c10_finite_block_needs_trailing_char '2' (("16").data) (("stranger things;").data)
    (("!").data) (by decide) (by decide) (by decide) (by decide)).mpr (by decide)

/-! ## Lemmas for the short-form alias invariant (claim C4) -/

/-- Dictionary write then read of the same key. -/
theorem lookupA_insertA_self (k : Str) (v : Nat) :
    ∀ l, lookupA k (insertA k v l) = some v := by
  intro l
  induction l with
  | nil => simp [insertA, lookupA]
  | cons p rest ih =>
    by_cases h : p.1 = k
    · simp [insertA, h, lookupA]
    · simp [insertA, h, lookupA, ih]

/-- Dictionary write then read of a different key. -/
theorem lookupA_insertA_ne (k k' : Str) (v : Nat) (h : k' ≠ k) :
    ∀ l, lookupA k' (insertA k v l) = lookupA k' l := by
  intro l
  induction l with
  | nil => simp [insertA, lookupA, Ne.symm h]
  | cons p rest ih =>
    by_cases hp : p.1 = k
    · simp only [insertA, if_pos hp, lookupA]
      rw [if_neg (Ne.symm h), if_neg (by rw [hp]; exact Ne.symm h)]
    · simp only [insertA, if_neg hp, lookupA]
      by_cases hk : p.1 = k'
      · rw [if_pos hk, if_pos hk]
      · rw [if_neg hk, if_neg hk]
        exact ih

/-- The short form of a key is strictly shorter than the key. -/
theorem shortFormU_length (k s : Str) (h : shortFormU k = some s) :
    s.length < k.length := by
  unfold shortFormU at h
  split_ifs at h with h1 h2
  · obtain ⟨h3, _⟩ := h1
    injection h with h
    subst h
    simp [List.length_take]
    omega
  · injection h with h
    subst h
    simp [List.length_take]
    omega

/-- A key and its short form differ. -/
theorem shortFormU_ne (k s : Str) (h : shortFormU k = some s) : s ≠ k := by
  intro hEq
  have := shortFormU_length k s h
  rw [hEq] at this
  omega

/-- A key and its short form start with the same character. -/
theorem shortFormU_head (k s : Str) (h : shortFormU k = some s) :
    s.head? = k.head? := by
  have hlen := shortFormU_length k s h
  unfold shortFormU at h
  split_ifs at h with h1 h2 <;> injection h with h <;> subst h <;>
    (cases k with
     | nil => rfl
     | cons a l => simp [List.take])

/-- A short form has no short form of its own: the length-3 form is too
short, and the length-4 form (derived only when the key's 4th character
is not a vowel) fails the vowel test. -/
theorem getD_take_four (k : Str) : (k.take 4).getD 3 ' ' = k.getD 3 ' ' := by
  rcases k with _ | ⟨a, _ | ⟨b, _ | ⟨c, _ | ⟨d, rest⟩⟩⟩⟩ <;> rfl

theorem shortFormU_none_of_short (k s : Str) (h : shortFormU k = some s) :
    shortFormU s = none := by
  unfold shortFormU at h
  split_ifs at h with h1 h2 <;> injection h with h <;> subst h
  · have h3 : 3 < k.length := h1.1
    have hl : (k.take 3).length = 3 := by
      simp [List.length_take]
      omega
    unfold shortFormU
    have hcond1 : ¬ (3 < (k.take 3).length ∧ (k.take 3).getD 3 ' ' ∈ vowelsAEIOUY) := by
      rw [hl]
      intro hcon
      exact absurd hcon.1 (by norm_num)
    have hcond2 : ¬ (4 < (k.take 3).length) := by
      rw [hl]
      norm_num
    rw [if_neg hcond1, if_neg hcond2]
  · have hl : (k.take 4).length = 4 := by
      simp [List.length_take]
      omega
    unfold shortFormU
    have hcond1 : ¬ (3 < (k.take 4).length ∧ (k.take 4).getD 3 ' ' ∈ vowelsAEIOUY) := by
      rw [hl, getD_take_four]
      intro hcon
      exact h1 ⟨by omega, hcon.2⟩
    have hcond2 : ¬ (4 < (k.take 4).length) := by
      rw [hl]
      norm_num
    rw [if_neg hcond1, if_neg hcond2]

/-- The empty list never has a short form. -/
theorem shortFormU_nil : shortFormU ([] : Str) = none := by
  unfold shortFormU
  rw [if_neg, if_neg] <;> simp

/-- On a case-fixed (upper-case) token, `add_command`'s short-form
computation is exactly `shortFormU`. -/
theorem shortOf_upper (tkn : Str) (h : strUpper tkn = tkn) :
    shortOf true tkn = .ok (shortFormU tkn) := by
  unfold shortOf shortFormU
  rw [if_pos rfl, h]

/-- The token stripped by `stripTok` is a prefix-take of the input. -/
theorem stripTok_sub (optional : Bool) (tkn : Str) (nextOpt : Bool) (tkn1 : Str)
    (hok : stripTok optional tkn = .ok (nextOpt, tkn1)) :
    ∃ n, tkn1 = tkn.take n ∧ tkn1 ≠ [] := by
  simp only [stripTok] at hok
  repeat' split at hok
  all_goals try exact Except.noConfusion hok
  all_goals rename_i hne
  all_goals injection hok with hok
  all_goals rw [Prod.mk.injEq] at hok
  all_goals exact ⟨_, hok.2.symm, hok.2 ▸ hne⟩

/-- Unfolding `splitOnChar` on a cons cell. -/
theorem splitOnChar_cons (sep a : Char) (s : Str) (t : Str) (ts : List Str)
    (hsp : splitOnChar sep s = t :: ts) :
    splitOnChar sep (a :: s) = if a = sep then [] :: t :: ts else (a :: t) :: ts := by
  unfold splitOnChar
  rw [hsp]

/-- `str.split` never returns the empty list. -/
theorem splitOnChar_ne_nil (sep : Char) (s : Str) : splitOnChar sep s ≠ [] := by
  cases s with
  | nil => simp [splitOnChar]
  | cons c cs =>
    simp only [splitOnChar]
    rcases splitOnChar sep cs with _ | ⟨t, ts⟩ <;> by_cases h : c = sep <;> simp [h]

/-- Every character of every piece of `str.split` is a character of the
original string. -/
theorem splitOnChar_chars (sep : Char) :
    ∀ (s : Str) (p : Str), p ∈ splitOnChar sep s → ∀ c ∈ p, c ∈ s := by
  intro s
  induction s with
  | nil =>
    intro p hp c hc
    simp [splitOnChar] at hp
    subst hp
    simp at hc
  | cons a s ih =>
    intro p hp c hc
    rcases hsp : splitOnChar sep s with _ | ⟨t, ts⟩
    · exact absurd hsp (splitOnChar_ne_nil sep s)
    · have hp2 : p ∈ (if a = sep then [] :: t :: ts else (a :: t) :: ts) := by
        rw [← splitOnChar_cons sep a s t ts hsp]
        exact hp
      by_cases ha : a = sep
      · rw [if_pos ha] at hp2
        rcases List.mem_cons.mp hp2 with hp2 | hp2
        · subst hp2
          simp at hc
        · exact List.mem_cons_of_mem a (ih p (hsp ▸ hp2) c hc)
      · rw [if_neg ha] at hp2
        rcases List.mem_cons.mp hp2 with hp2 | hp2
        · subst hp2
          rcases List.mem_cons.mp hc with hc | hc
          · exact hc ▸ List.mem_cons_self a s
          · exact List.mem_cons_of_mem a (ih t (hsp ▸ List.mem_cons_self t ts) c hc)
        · exact List.mem_cons_of_mem a (ih p (hsp ▸ List.mem_cons_of_mem t hp2) c hc)

/-- A string whose upper-casing is itself has only upper-case-fixed
characters. -/
theorem strUpper_fixed_mem (s : Str) (h : strUpper s = s) :
    ∀ c ∈ s, c.toUpper = c := by
  induction s with
  | nil => intro c hc; simp at hc
  | cons a l ih =>
    simp only [strUpper, List.map_cons, List.cons.injEq] at h
    intro c hc
    rcases List.mem_cons.mp hc with hc | hc
    · exact hc ▸ h.1
    · exact ih h.2 c hc

/-- A string of upper-case-fixed characters is fixed by upper-casing. -/
theorem strUpper_fixed_of_mem (s : Str) (h : ∀ c ∈ s, c.toUpper = c) :
    strUpper s = s := by
  induction s with
  | nil => rfl
  | cons a l ih =>
    have ih2 : List.map Char.toUpper l = l :=
      ih (fun c hc => h c (List.mem_cons_of_mem a hc))
    simp only [strUpper, List.map_cons, ih2, h a (List.mem_cons_self a l)]

/-- `getD` after `set` at a different index. -/
theorem getD_set_ne (l : List Node) (i j : Nat) (n d : Node) (hij : i ≠ j) :
    (l.set i n).getD j d = l.getD j d := by
  induction l generalizing i j with
  | nil => simp [List.set]
  | cons a rest ih =>
    cases i with
    | zero =>
      cases j with
      | zero => exact absurd rfl hij
      | succ m => simp [List.set, List.getD_cons_succ]
    | succ m =>
      cases j with
      | zero => simp [List.set, List.getD_cons_zero]
      | succ m2 =>
        simp only [List.set, List.getD_cons_succ]
        exact ih m m2 (fun hEq => hij (by rw [hEq]))

/-- `getD` after `set` at the same index. -/
theorem getD_set_self (l : List Node) (i : Nat) (n d : Node) :
    (l.set i n).getD i d = if i < l.length then n else d := by
  induction l generalizing i with
  | nil => simp [List.set, List.getD_nil]
  | cons a rest ih =>
    cases i with
    | zero => simp [List.set, List.getD_cons_zero]
    | succ m =>
      simp only [List.set, List.getD_cons_succ, List.length_cons, ih]
      by_cases hm : m < rest.length
      · rw [if_pos hm, if_pos (by omega)]
      · rw [if_neg hm, if_neg (by omega)]

/-- `getD` over a one-element append whose element is the default. -/
theorem getD_append_single (l : List Node) (x d : Node) (i : Nat) (hx : x = d) :
    (l ++ [x]).getD i d = l.getD i d := by
  induction l generalizing i with
  | nil =>
    cases i with
    | zero => simpa [List.getD_cons_zero, List.getD_nil] using hx
    | succ m => cases m <;> simp [List.getD_nil, List.getD_cons_succ]
  | cons a rest ih =>
    cases i with
    | zero => simp [List.getD_cons_zero]
    | succ m => simp only [List.cons_append, List.getD_cons_succ, ih]

/-- Allocating a fresh node changes no read: the fresh node equals the
out-of-range default. -/
theorem getNode_alloc (t : Tree) (i : Nat) : getNode (allocNode t).1 i = getNode t i :=
  getD_append_single t.nodes ⟨[], none⟩ ⟨[], none⟩ i rfl

/-- Reading the written slot (out-of-range writes are dropped). -/
theorem getNode_setNode_self (t : Tree) (i : Nat) (n : Node) :
    getNode (setNode t i n) i = if i < t.nodes.length then n else ⟨[], none⟩ :=
  getD_set_self t.nodes i n ⟨[], none⟩

/-- Reading another slot after a write. -/
theorem getNode_setNode_ne (t : Tree) (i j : Nat) (n : Node) (hij : i ≠ j) :
    getNode (setNode t i n) j = getNode t j :=
  getD_set_ne t.nodes i j n ⟨[], none⟩ hij

/-- The alias invariant holds for the freshly initialized receiver. -/
theorem TreeInv_empty : TreeInv emptyTree := by
  intro i k id s hlk _ _
  have hch : (getNode emptyTree i).children = [] := by
    cases i with
    | zero => rfl
    | succ m => cases m <;> rfl
  rw [hch] at hlk
  exact Option.noConfusion hlk

/-- The alias invariant is preserved by allocation. -/
theorem TreeInv_alloc (t : Tree) (hinv : TreeInv t) : TreeInv (allocNode t).1 := by
  intro i k id s hlk hst hsf
  rw [getNode_alloc] at hlk ⊢
  exact hinv i k id s hlk hst hsf

/-- The alias invariant is preserved by writing a node whose own
children satisfy it. -/
theorem TreeInv_setNode (t : Tree) (i : Nat) (n : Node)
    (hinv : TreeInv t)
    (hn : ∀ k id s, lookupA k n.children = some id → k.head? ≠ some '*' →
          shortFormU k = some s → lookupA s n.children = some id) :
    TreeInv (setNode t i n) := by
  intro j k id s hlk hst hsf
  by_cases hij : i = j
  · subst hij
    rw [getNode_setNode_self] at hlk ⊢
    by_cases hlen : i < t.nodes.length
    · rw [if_pos hlen] at hlk ⊢
      exact hn k id s hlk hst hsf
    · rw [if_neg hlen] at hlk
      exact Option.noConfusion hlk
  · rw [getNode_setNode_ne t i j n hij] at hlk ⊢
    exact hinv j k id s hlk hst hsf

/-- If the command string starts with `*`, so does the first piece of
its `:`-split. -/
theorem splitOnChar_head_star (cmd first : Str) (rest : List Str)
    (hsp : splitOnChar ':' cmd = first :: rest)
    (hstar : cmd.head? = some '*') : first.head? = some '*' := by
  cases cmd with
  | nil => simp at hstar
  | cons a cs =>
    simp only [List.head?] at hstar
    injection hstar with hstar
    subst hstar
    rcases hE : splitOnChar ':' cs with _ | ⟨t, ts⟩
    · exact absurd hE (splitOnChar_ne_nil ':' cs)
    · have hcons := splitOnChar_cons ':' '*' cs t ts hE
      rw [if_neg (by decide : ¬ ('*' : Char) = ':')] at hcons
      rw [hcons] at hsp
      injection hsp with h1 _
      rw [← h1]
      rfl

/-- The per-dictionary registration step preserves the alias invariant:
when the long form is new, the code binds the short form to the *same*
fresh child in the same dictionary. -/
theorem TreeInv_addTokenAt (t : Tree) (dct : Nat) (long : Str) (short : Option Str)
    (t1 : Tree) (cid : Nat)
    (hinv : TreeInv t)
    (hstar : long.head? ≠ some '*')
    (hsf : shortFormU long = short)
    (hok : addTokenAt t dct long short = .ok (t1, cid)) :
    TreeInv t1 := by
  simp only [addTokenAt, allocNode] at hok
  rcases hl : lookupA long (getNode t dct).children with _ | cid0 <;>
    simp only [hl] at hok
  · -- long form absent: fresh child, long (and short) bound to it
    cases short with
    | none =>
      injection hok with hok
      rw [Prod.mk.injEq] at hok
      rw [← hok.1]
      apply TreeInv_setNode
      · exact TreeInv_alloc t hinv
      · intro k id s hlk hst hsf2
        by_cases hkl : k = long
        · subst hkl
          rw [hsf] at hsf2
          exact Option.noConfusion hsf2
        · rw [lookupA_insertA_ne long k _ hkl] at hlk
          have hs := hinv dct k id s hlk hst hsf2
          have hs2l : s ≠ long := by
            intro hEq
            rw [hEq, hl] at hs
            exact Option.noConfusion hs
          rw [lookupA_insertA_ne long s _ hs2l]
          exact hs
    | some sN =>
      rcases hsn : lookupA sN (insertA long t.nodes.length (getNode t dct).children)
          with _ | oldId
      case some =>
        simp only [hsn] at hok
        exact Except.noConfusion hok
      simp only [hsn] at hok
      · injection hok with hok
        rw [Prod.mk.injEq] at hok
        rw [← hok.1]
        have hlongne : sN ≠ long := shortFormU_ne long sN hsf
        apply TreeInv_setNode
        · exact TreeInv_alloc t hinv
        · intro k id s hlk hst hsf2
          by_cases hks : k = sN
          · subst hks
            rw [shortFormU_none_of_short long k hsf] at hsf2
            exact Option.noConfusion hsf2
          · by_cases hkl : k = long
            · subst hkl
              rw [lookupA_insertA_ne sN k _ (Ne.symm hlongne),
                  lookupA_insertA_self k _ _] at hlk
              injection hlk with hlk
              rw [hsf] at hsf2
              injection hsf2 with hsf2
              rw [← hsf2, ← hlk]
              exact lookupA_insertA_self sN _ _
            · rw [lookupA_insertA_ne sN k _ hks,
                  lookupA_insertA_ne long k _ hkl] at hlk
              have hs := hinv dct k id s hlk hst hsf2
              have hs2long : s ≠ long := by
                intro hEq
                rw [hEq, hl] at hs
                exact Option.noConfusion hs
              have hs2sn : s ≠ sN := by
                intro hEq
                rw [lookupA_insertA_ne long sN _ hlongne, ← hEq, hs] at hsn
                exact Option.noConfusion hsn
              rw [lookupA_insertA_ne sN s _ hs2sn,
                  lookupA_insertA_ne long s _ hs2long]
              exact hs
  · -- long form already present: the store is unchanged
    injection hok with hok
    rw [Prod.mk.injEq] at hok
    rw [← hok.1]
    exact hinv

/-- The locations loop preserves the alias invariant. -/
theorem TreeInv_addTokenLocs (long : Str) (short : Option Str) (optional : Bool)
    (hstar : long.head? ≠ some '*') (hsf : shortFormU long = short) :
    ∀ (locs : List Nat) (t t1 : Tree) (locs1 : List Nat),
      TreeInv t → addTokenLocs long short optional locs t = .ok (t1, locs1) →
      TreeInv t1 := by
  intro locs
  induction locs with
  | nil =>
    intro t t1 locs1 hinv hok
    simp only [addTokenLocs] at hok
    injection hok with hok
    rw [Prod.mk.injEq] at hok
    rw [← hok.1]
    exact hinv
  | cons dct rest ih =>
    intro t t1 locs1 hinv hok
    simp only [addTokenLocs, bind, Except.bind] at hok
    rcases h1 : addTokenAt t dct long short with e | ⟨t2, cid⟩ <;>
      simp only [h1] at hok
    · exact Except.noConfusion hok
    · rcases h2 : addTokenLocs long short optional rest t2 with e | ⟨t3, next⟩ <;>
        simp only [h2] at hok
      · exact Except.noConfusion hok
      · injection hok with hok
        rw [Prod.mk.injEq] at hok
        rw [← hok.1]
        exact ih t2 t3 next
          (TreeInv_addTokenAt t dct long short t2 cid hinv hstar hsf h1) h2

/-- The main token loop of `add_command` (with `ignore_case=True`)
preserves the alias invariant, for patterns whose tokens are upper-case
and `*`-free. -/
theorem TreeInv_addTokens :
    ∀ (toks : List Str) (optional : Bool) (locs : List Nat) (t t1 : Tree)
      (locs1 : List Nat),
      TreeInv t →
      (∀ tk ∈ toks, strUpper tk = tk ∧ ('*' : Char) ∉ tk) →
      addTokens true toks optional locs t = .ok (t1, locs1) → TreeInv t1 := by
  intro toks
  induction toks with
  | nil =>
    intro _ _ t t1 _ hinv _ hok
    simp only [addTokens] at hok
    injection hok with hok
    rw [Prod.mk.injEq] at hok
    rw [← hok.1]
    exact hinv
  | cons tk rest ih =>
    intro optional locs t t1 locs1 hinv hgood hok
    simp only [addTokens, bind, Except.bind] at hok
    rcases h1 : stripTok optional tk with e | ⟨nextOpt, tkn1⟩ <;>
      simp only [h1] at hok
    case error => exact Except.noConfusion hok
    obtain ⟨n, htk1, htkne⟩ := stripTok_sub optional tk nextOpt tkn1 h1
    have hgtk := hgood tk (List.mem_cons_self tk rest)
    have hup1 : strUpper tkn1 = tkn1 := by
      rw [htk1]
      exact strUpper_fixed_of_mem _
        (fun c hc => strUpper_fixed_mem tk hgtk.1 c (List.take_subset n tk hc))
    have hstar1 : tkn1.head? ≠ some '*' := by
      intro hh
      have hmem : ('*' : Char) ∈ tkn1 := by
        cases tkn1 with
        | nil => exact Option.noConfusion hh
        | cons x xs =>
          simp only [List.head?] at hh
          injection hh with hh
          subst hh
          exact List.mem_cons_self _ _
      rw [htk1] at hmem
      exact hgtk.2 (List.take_subset n tk hmem)
    rw [shortOf_upper tkn1 hup1] at hok
    simp only [Except.bind, hup1] at hok
    rcases h2 : addTokenLocs tkn1 (shortFormU tkn1) optional locs t
        with e | ⟨t2, locs2⟩ <;> simp only [h2] at hok
    case error => exact Except.noConfusion hok
    have hinv2 :=
      TreeInv_addTokenLocs tkn1 (shortFormU tkn1) optional hstar1 rfl
        locs t t2 locs2 hinv h2
    exact ih nextOpt locs2 t2 t1 locs1 hinv2
      (fun tk2 h => hgood tk2 (List.mem_cons_of_mem tk h)) hok

/-- The endpoint-filling pass touches no children, hence preserves the
alias invariant. -/
theorem TreeInv_fillEndpoints (handler : Nat) :
    ∀ (locs : List Nat) (t t1 : Tree), TreeInv t →
      fillEndpoints handler locs t = .ok t1 → TreeInv t1 := by
  intro locs
  induction locs with
  | nil =>
    intro t t1 hinv hok
    injection hok with hok
    rw [← hok]
    exact hinv
  | cons dct rest ih =>
    intro t t1 hinv hok
    simp only [fillEndpoints] at hok
    rcases hE : (getNode t dct).endpoint with _ | h0 <;> simp only [hE] at hok
    case some => exact Except.noConfusion hok
    apply ih _ t1 ?_ hok
    apply TreeInv_setNode
    · exact hinv
    · intro k id s hlk hst hsf
      exact hinv dct k id s hlk hst hsf

/-- A successful `add_command(..., ignore_case=True)` registration of an
upper-case pattern (common, or colon-form without `*`) preserves the
alias invariant. -/
theorem TreeInv_addCommand (t t1 : Tree) (cmd : Str) (handler : Nat)
    (hinv : TreeInv t) (hupper : strUpper cmd = cmd)
    (hstar : cmd.head? = some '*' ∨ ('*' : Char) ∉ cmd)
    (hok : addCommand t cmd handler true = .ok t1) : TreeInv t1 := by
  simp only [addCommand, allocNode] at hok
  rcases hsp : splitOnChar ':' cmd with _ | ⟨first, rest⟩
  · exact absurd hsp (splitOnChar_ne_nil ':' cmd)
  simp only [hsp] at hok
  have hA0 : getNode (⟨t.nodes ++ [⟨[], none⟩]⟩ : Tree) 0 = getNode t 0 :=
    getNode_alloc t 0
  by_cases hfs : first.head? = some '*'
  · rw [if_pos hfs] at hok
    by_cases hr : rest = []
    · rw [if_neg (not_not_intro hr)] at hok
      injection hok with hok
      rw [← hok]
      apply TreeInv_setNode
      · apply TreeInv_setNode
        · exact TreeInv_alloc t hinv
        · intro k id s hlk hst hsf2
          by_cases hkf : k = first
          · subst hkf
            exact absurd hfs hst
          · rw [lookupA_insertA_ne first k _ hkf, hA0] at hlk
            have hs := hinv 0 k id s hlk hst hsf2
            have hshead := shortFormU_head k s hsf2
            have hsfirst : s ≠ first := by
              intro hEq
              apply hst
              rw [← hshead, hEq]
              exact hfs
            rw [lookupA_insertA_ne first s _ hsfirst, hA0]
            exact hs
      · intro k id s hlk _ _
        exact Option.noConfusion hlk
    · rw [if_pos hr] at hok
      exact Except.noConfusion hok
  · rw [if_neg hfs] at hok
    have hnostar : ('*' : Char) ∉ cmd := by
      rcases hstar with h | h
      · exact absurd (splitOnChar_head_star cmd first rest hsp h) hfs
      · exact h
    by_cases hbr : first = ("[").data ∨ first = []
    · rw [if_pos hbr] at hok
      simp only [bind, Except.bind] at hok
      rcases h1 : addTokens true rest (decide (first = ("[").data)) [0] t
          with e | ⟨t2, locs⟩ <;> simp only [h1] at hok
      · exact Except.noConfusion hok
      · have hgood : ∀ tk ∈ rest, strUpper tk = tk ∧ ('*' : Char) ∉ tk := by
          intro tk htk
          have hmem : tk ∈ splitOnChar ':' cmd := hsp ▸ List.mem_cons_of_mem first htk
          refine ⟨?_, ?_⟩
          · exact strUpper_fixed_of_mem tk
              (fun c hc => strUpper_fixed_mem cmd hupper c
                (splitOnChar_chars ':' cmd tk hmem c hc))
          · intro hc
            exact hnostar (splitOnChar_chars ':' cmd tk hmem '*' hc)
        exact TreeInv_fillEndpoints handler locs t2 t1
          (TreeInv_addTokens rest (decide (first = ("[").data)) [0] t t2 locs
            hinv hgood h1) hok
    · rw [if_neg hbr] at hok
      exact Except.noConfusion hok

/-- Every tree reachable by upper-case registrations satisfies the alias
invariant. -/
theorem TreeInv_of_reachable (t : Tree) (h : ReachableUpper t) : TreeInv t := by
  induction h with
  | init => exact TreeInv_empty
  | step t t1 cmd hdl hre hupper hstar hok ih =>
    exact TreeInv_addCommand t t1 cmd hdl ih hupper hstar hok

/-- Folding a command list through `add_command` yields a reachable tree
when every pattern is upper-case and `*`-clean. -/
theorem ReachableUpper_buildTree :
    ∀ (cmds : List (Str × Nat)) (t t1 : Tree),
      ReachableUpper t →
      (∀ p ∈ cmds, strUpper p.1 = p.1 ∧
        (p.1.head? = some '*' ∨ ('*' : Char) ∉ p.1)) →
      buildTree cmds t = .ok t1 → ReachableUpper t1 := by
  intro cmds
  induction cmds with
  | nil =>
    intro t t1 hre _ hok
    injection hok with hok
    rw [← hok]
    exact hre
  | cons p rest ih =>
    rcases p with ⟨cmd, hdl⟩
    intro t t1 hre hgood hok
    simp only [buildTree] at hok
    rcases h1 : addCommand t cmd hdl true with e | t2 <;> simp only [h1] at hok
    · exact Except.noConfusion hok
    · have hg := hgood (cmd, hdl) (List.mem_cons_self _ rest)
      exact ih t2 t1
        (ReachableUpper.step t t2 cmd hdl hre hg.1 hg.2 h1)
        (fun q hq => hgood q (List.mem_cons_of_mem _ hq)) hok

/-- The eight-command test tree is a reachable upper-case registration. -/
theorem reachable_tree8 : ReachableUpper tree8 :=
  ReachableUpper_buildTree testCmds emptyTree tree8 .init (by decide) (by decide)

/-- Under the alias invariant, `resolve` is insensitive to replacing any
tokens of a resolving header by their short forms. -/
theorem resolveFrom_subst (t : Tree) (hinv : TreeInv t) :
    ∀ (ts ts1 : List Str), List.Forall₂ SubstTok ts ts1 →
      ∀ (i h : Nat), resolveFrom t i ts = some h → resolveFrom t i ts1 = some h := by
  intro ts ts1 hf
  induction hf with
  | nil =>
    intro i h hres
    exact hres
  | @cons a b as bs hab htail ih =>
    intro i h hres
    simp only [resolveFrom] at hres ⊢
    rcases hl : lookupA a (getNode t i).children with _ | cid <;>
      simp only [hl] at hres
    · exact Option.noConfusion hres
    · rcases hab with rfl | ⟨hsf, hstar⟩
      · rw [hl]
        exact ih cid h hres
      · rw [hinv i a cid b hl hstar hsf]
        exact ih cid h hres

/-- C4, counterexample to the claim as stated: the short form is *not*
derived from the upper-cased mnemonic.  Registering the mixed-case
pattern `:POWer:STOP` with `ignore_case=True` tests the 4th character as
written (`'e' ∉ 'AEIOUY'`), so the registered short form is `POWE`, not
the spec-derived `POW`: `find` fails on `:POW:STOP`. -/
theorem c4_counterexample :
    addCommand emptyTree ((":POWer:STOP").data) 1 true = .ok powTree ∧
    resolveTokens powTree [("POWER").data, ("STOP").data] = some 1 ∧
    resolveTokens powTree [("POWE").data, ("STOP").data] = some 1 ∧
    resolveTokens powTree [("POW").data, ("STOP").data] = none ∧
    find powTree ((":POW:STOP").data) [] =
      .error (.protocol (("Unknown command `").data ++ (":POW:STOP").data
        ++ ("`").data)) := by
  exact ⟨by decide, by decide, by decide, by decide, by decide⟩

/-- C4 (amended): for every tree built from *upper-case* patterns by
successful `add_command(..., ignore_case=True)` registrations, replacing
any subset of the mnemonics of a resolving token list by their
registration-derived short forms (first 3 letters when the 4th is one of
`AEIOUY`, else first 4 — computed on the upper-cased = as-written
mnemonic) resolves to the identical handler, and `find` on the
corresponding colon-prefixed header returns that handler.  (On
mixed-case patterns the code derives the short form from the mnemonic as
written, not from its upper-casing — see the counterexample.) -/
theorem c4_short_form_aliases (t : Tree) (hre : ReachableUpper t)
    (ts ts1 : List Str) (hf : List.Forall₂ SubstTok ts ts1)
    (hID : Nat) (hres : resolveTokens t ts = some hID) :
    resolveTokens t ts1 = some hID ∧
    ∀ header : Str, splitOnChar ':' header = [] :: ts1 →
      find t header [] = .ok (hID, ts1.dropLast) := by
  have hinv := TreeInv_of_reachable t hre
  have h1 : resolveTokens t ts1 = some hID :=
    resolveFrom_subst t hinv ts ts1 hf 0 hID hres
  refine ⟨h1, ?_⟩
  intro header hsp
  simp only [find, hsp]
  simp only [if_true, h1]

/-- C4 witness: on the eight-command test tree, `FREQUENCY`/`START`
resolve to handler 1, hence so do the short forms `FREQ`/`STAR`, and
`find` accepts `:FREQ:STAR`. -/
theorem c4_witness :
    resolveTokens tree8 [("FREQ").data, ("STAR").data] = some 1 ∧
    find tree8 ((":FREQ:STAR").data) [] = .ok (1, [("FREQ").data]) := by
  have hf : List.Forall₂ SubstTok
      [("FREQUENCY").data, ("START").data] [("FREQ").data, ("STAR").data] :=
    .cons (Or.inr ⟨by decide, by decide⟩)
      (.cons (Or.inr ⟨by decide, by decide⟩) .nil)
  have h := c4_short_form_aliases tree8 reachable_tree8
    [("FREQUENCY").data, ("START").data] [("FREQ").data, ("STAR").data]
    hf 1 (by decide)
  exact ⟨h.1, h.2 ((":FREQ:STAR").data) (by decide)⟩

end SCPIVirt
